import Mathlib

/-!
# The formatted-output engine of `kernel/print.c`

A shallow embedding of `kernel/print.c` and the properties of it that the
specification states.

## Conventions of the embedding

* A C string (a template, a `%s` argument) is the `List Char` of its characters
  before the terminator; the end of the list stands for the terminator.
* The sink `p->putchr` is a caller-supplied callback.  A printer carries the
  state of its sink (`sink`, of an arbitrary type `σ`) together with the
  sequence of characters passed to the sink so far (`out`): one element of
  `out` per call of `putchr`.
* `INT` is declared in `ifftw.h`, which is not part of the sources at hand: its
  width in bits is the parameter `w` of `putint` and `vprint`.
* The fields `indent` and `indent_incr` are C `int`s; arithmetic on them is done
  in `ℤ` (signed overflow of the indentation is undefined in C and is not
  modelled).
* Undefined behaviour (a read outside an array, a `va_arg` that does not match
  the argument list, a write past a buffer) is the outcome `undef`.
-/

namespace Print

/-- The size of the scratch buffers: `#define BSZ 64`. -/
def BSZ : Nat := 64

/-- The functions of `print.c` that a printer's entry points can be bound to. -/
inductive entry where
  | print
  | vprint
  deriving DecidableEq, Repr

/-- The `printer` structure (declared in `ifftw.h`; the fields are those that
`mkprinter` initialises), extended with the state of the sink and with the
sequence `out` of characters handed to the sink so far. -/
structure printer (σ : Type) where
  print : entry
  vprint : entry
  putchr : σ → Char → σ
  cleanup : Option (σ → σ)
  indent : Int
  indent_incr : Int
  sink : σ
  out : List Char

/-- The ways in which an execution can leave defined behaviour. -/
inductive fault where
  /-- a read of the template beyond its terminator -/
  | overrun
  /-- `va_arg` with a type that is not the type of the next argument, or with
  no argument left -/
  | va_arg
  /-- a read outside the digit table of `putint` -/
  | index
  /-- a write past the end of a `BSZ`-byte buffer -/
  | overflow
  /-- a division by zero -/
  | divzero
  deriving DecidableEq, Repr

/-- How a call ends: it returns (`done`, with the printer as it is then and a
result), it halts the program on a failed assertion (`failed`, with the printer
as it was at that moment), or it runs into undefined behaviour. -/
inductive outcome (σ : Type) (α : Type) where
  | done (p : printer σ) (a : α)
  | failed (p : printer σ)
  | undef (f : fault)

/-- A plan, seen through its print capability: `print p` is the effect of
`x->adt->print(x, p)`. -/
structure plan (σ : Type) where
  print : printer σ → outcome σ Unit

/-- A problem, seen through its print capability: `print p` is the effect of
`x->adt->print(x, p)`. -/
structure problem (σ : Type) where
  print : printer σ → outcome σ Unit

/-- Modelled from the spec: the tensor-rendering routine `X(tensor_print)` is
not part of the sources at hand.  A tensor is represented by the effect
`tensor_print p` that the routine has on a printer when applied to it. -/
structure tensor (σ : Type) where
  tensor_print : printer σ → outcome σ Unit

/-- A `double` argument.  Floating-point conversion is not modelled: the value
is represented by the text that `sprintf` produces for it under the conversion
`%f`, `%e` or `%g` (the argument of `text` is the conversion character). -/
structure cdouble where
  text : Char → List Char

/-- One element of the variable argument list, tagged with its C type. -/
inductive arg (σ : Type) where
  | md5uint (x : Nat)
  | int (x : Int)
  | unsigned (x : Nat)
  | INT (x : Int)
  | double (x : cdouble)
  | str (x : Option (List Char))
  | plan (x : Option (plan σ))
  | problem (x : Option (problem σ))
  | tensor (x : Option (tensor σ))

variable {σ : Type}

/-- The call `p->putchr(p, c)`: the sink receives `c`. -/
def do_putchr (p : printer σ) (c : Char) : printer σ :=
  { p with sink := p.putchr p.sink c, out := p.out ++ [c] }

/-- The function `myputs`: every character of `s` before its terminator goes to
the sink, in order. -/
def myputs (p : printer σ) : List Char → printer σ
  | [] => p
  | c :: s => myputs (do_putchr p c) s

/-- The function `newline`: a newline, then one space for each `i` with
`0 ≤ i < p->indent`. -/
def newline (p : printer σ) : printer σ :=
  myputs (do_putchr p (Char.ofNat 10)) (List.replicate p.indent.toNat (Char.ofNat 32))

/-- Reduction of an integer to the range of the `w`-bit two-complement type
`INT`. -/
def wrapINT (w : Nat) (x : Int) : Int :=
  (x + 2 ^ (w - 1)) % 2 ^ w - 2 ^ (w - 1)

/-- The string literal `"0123456789abcdef"` of `putint`, with its terminator. -/
def digit_table : List Char :=
  "0123456789abcdef".toList ++ [Char.ofNat 0]

/-- The first loop of `putint`, `do *f++ = table[i % base]; i /= base; while (i)`.
The first argument is the room left in `buf` and `buf` holds the characters
written so far, the latest first.  Division and remainder truncate, as in C. -/
def putint_digits (base : Int) : Nat → Int → List Char → Except fault (List Char)
  | 0, _, _ => .error .overflow
  | room + 1, i, buf =>
    if base = 0 then .error .divzero
    else if Int.tmod i base < 0 then .error .index
    else
      match digit_table.get? (Int.tmod i base).toNat with
      | none => .error .index
      | some ch =>
        if Int.tdiv i base ≠ 0 then putint_digits base room (Int.tdiv i base) (ch :: buf)
        else .ok (ch :: buf)

/-- The function `putint`.  The second loop, `do putchr(*--f) while (f != buf)`,
sends the buffer to the sink from the latest character written back to the
first. -/
def putint (w : Nat) (p : printer σ) (i base : Int) : outcome σ Unit :=
  let p1 := if i < 0 then do_putchr p '-' else p
  let i1 := if i < 0 then wrapINT w (-i) else i
  match putint_digits base BSZ i1 [] with
  | .error f => .undef f
  | .ok buf => .done (myputs p1 buf) ()

/-- Modelled from the spec: `sprintf` belongs to the C library.  The text of
`sprintf(buf, "%d", x)`: the decimal numeral of `x`. -/
def sprintf_d (x : Int) : List Char :=
  if x < 0 then '-' :: Nat.toDigits 10 x.natAbs else Nat.toDigits 10 x.natAbs

/-- Modelled from the spec: `sprintf` belongs to the C library.  The text of
`sprintf(buf, "%u", x)`. -/
def sprintf_u (x : Nat) : List Char := Nat.toDigits 10 x

/-- Modelled from the spec: `sprintf` belongs to the C library.  The text of
`sprintf(buf, "%x", x)`: lowercase hexadecimal. -/
def sprintf_x (x : Nat) : List Char := Nat.toDigits 16 x

/-- Modelled from the spec: `sprintf` belongs to the C library.  The text of
`sprintf(buf, "%8.8lx", x)`: lowercase hexadecimal with at least eight digits,
padded with zeros on the left. -/
def sprintf_8_8lx (x : Nat) : List Char :=
  List.replicate (8 - (Nat.toDigits 16 x).length) '0' ++ Nat.toDigits 16 x

/-- The label `putbuf` of `vprint`, after a `sprintf` that wrote `text` and a
terminator into `buf[BSZ]`. -/
def putbuf (p : printer σ) (text : List Char) (ap : List (arg σ)) :
    outcome σ (List (arg σ)) :=
  if text.length < BSZ then .done (myputs p text) ap else .undef .overflow

/-- The label `putnull` of `vprint`. -/
def putnull (p : printer σ) (ap : List (arg σ)) : outcome σ (List (arg σ)) :=
  .done (myputs p "(null)".toList) ap

/-- The conversion of the `int` argument of `%c` to the `char` that `putchr`
receives. -/
def int_to_char (x : Int) : Char := Char.ofNat (x % 256).toNat

/-- The result of a collaborator's print operation, seen from `vprint`, which
goes on with the argument list `ap`. -/
def after_print (o : outcome σ Unit) (ap : List (arg σ)) : outcome σ (List (arg σ)) :=
  match o with
  | .done p _ => .done p ap
  | .failed p => .failed p
  | .undef f => .undef f

/-- Modelled from the spec: the assertion macro `A` is defined in `ifftw.h`,
which is not part of the sources at hand.  "Unknown directive is a programming
error, halts execution": `A(0)` halts the program in the state it is in. -/
def assertion_failed (p : printer σ) (α : Type) : outcome σ α := .failed p

/-- The inner `switch` of `vprint` on the directive character `c`, for every case
but `'o'` (which reads on in the template and is part of `vprint` below).  The
result carries the argument list that is left. -/
def vprint_case (w : Nat) (c : Char) (p : printer σ) (ap : List (arg σ)) :
    outcome σ (List (arg σ)) :=
  if c = 'M' then
    match ap with
    | .md5uint x :: ap => putbuf p (sprintf_8_8lx (x % 2 ^ 32)) ap
    | _ => .undef .va_arg
  else if c = 'c' then
    match ap with
    | .int x :: ap => .done (do_putchr p (int_to_char x)) ap
    | _ => .undef .va_arg
  else if c = 's' then
    match ap with
    | .str (some x) :: ap => .done (myputs p x) ap
    | .str none :: ap => putnull p ap
    | _ => .undef .va_arg
  else if c = 'd' then
    match ap with
    | .int x :: ap => putbuf p (sprintf_d x) ap
    | _ => .undef .va_arg
  else if c = 'D' then
    match ap with
    | .INT x :: ap => after_print (putint w p x 10) ap
    | _ => .undef .va_arg
  else if c = 'f' ∨ c = 'e' ∨ c = 'g' then
    match ap with
    | .double x :: ap => putbuf p (x.text c) ap
    | _ => .undef .va_arg
  else if c = 'v' then
    match ap with
    | .INT x :: ap =>
      if x > 1 then after_print (putint w (myputs p "-x".toList) x 10) ap
      else .done p ap
    | _ => .undef .va_arg
  else if c = 'u' then
    match ap with
    | .unsigned x :: ap => putbuf p (sprintf_u x) ap
    | _ => .undef .va_arg
  else if c = 'x' then
    match ap with
    | .unsigned x :: ap => putbuf p (sprintf_x x) ap
    | _ => .undef .va_arg
  else if c = '(' then
    .done (newline { p with indent := p.indent + p.indent_incr }) ap
  else if c = ')' then
    .done { p with indent := p.indent - p.indent_incr } ap
  else if c = 'p' then
    match ap with
    | .plan (some x) :: ap => after_print (x.print p) ap
    | .plan none :: ap => putnull p ap
    | _ => .undef .va_arg
  else if c = 'P' then
    match ap with
    | .problem (some x) :: ap => after_print (x.print p) ap
    | .problem none :: ap => putnull p ap
    | _ => .undef .va_arg
  else if c = 'T' then
    match ap with
    | .tensor (some x) :: ap => after_print (x.tensor_print p) ap
    | .tensor none :: ap => putnull p ap
    | _ => .undef .va_arg
  else assertion_failed p _

mutual
/-- The function `vprint`: the scan of the template `s` from printer state `p`
with the arguments `ap`.  On return the result carries the arguments that were
not consumed.  A directive character that is the terminator falls into the
`default` case of the inner `switch`. -/
def vprint (w : Nat) : List Char → printer σ → List (arg σ) → outcome σ (List (arg σ))
  | [], p, ap => .done p ap
  | c :: s, p, ap =>
    if c = '%' then
      match s with
      | [] => assertion_failed p _
      | c :: s =>
        if c = 'o' then
          match ap with
          | .INT x :: ap => vprint_o w x s (if x ≠ 0 then do_putchr p '/' else p) ap
          | _ => .undef .va_arg
        else
          match vprint_case w c p ap with
          | .done p ap => vprint w s p ap
          | .failed p => .failed p
          | .undef f => .undef f
    else vprint w s (do_putchr p c) ap
/-- The label loop of `case 'o'`, `while ((c = *s++) != '=') if (x) putchr(c)`,
and what follows it.  When the loop reads the terminator it goes on reading
beyond it. -/
def vprint_o (w : Nat) (x : Int) : List Char → printer σ → List (arg σ) →
    outcome σ (List (arg σ))
  | [], _, _ => .undef .overrun
  | c :: s, p, ap =>
    if c = '=' then
      if x ≠ 0 then
        match putint w (do_putchr p '=') x 10 with
        | .done p _ => vprint w s p ap
        | .failed p => .failed p
        | .undef f => .undef f
      else vprint w s p ap
    else vprint_o w x s (if x ≠ 0 then do_putchr p c else p) ap
end

/-- The function `print`: `va_start`, `vprint`, `va_end`. -/
def print (w : Nat) (p : printer σ) (format : List Char) (args : List (arg σ)) :
    outcome σ (List (arg σ)) :=
  vprint w format p args

/-- The function `mkprinter`.  `MALLOC` halts the program when it cannot
allocate, so a return means that the storage exists; `s0` is the state of the
sink that the caller sets up in that storage. -/
def mkprinter (_size : Nat) (putchr : σ → Char → σ) (cleanup : Option (σ → σ)) (s0 : σ) :
    printer σ :=
  { print := .print, vprint := .vprint, putchr := putchr, cleanup := cleanup,
    indent := 0, indent_incr := 2, sink := s0, out := [] }

/-- A freshly created printer whose sink keeps the characters it receives. -/
def fresh : printer (List Char) :=
  mkprinter 0 (fun s c => s ++ [c]) none []

/-! ## Reference notions of the specification -/

/-- The decimal numeral of an integer: a minus sign for a negative value, then
the digits of the magnitude, most significant first. -/
def decimal (x : Int) : List Char :=
  if x < 0 then '-' :: Nat.toDigits 10 x.natAbs else Nat.toDigits 10 x.natAbs

/-- The value of a lowercase digit character, in bases up to sixteen. -/
def digit_value (c : Char) : Option Nat :=
  if '0'.toNat ≤ c.toNat ∧ c.toNat ≤ '9'.toNat then some (c.toNat - '0'.toNat)
  else if 'a'.toNat ≤ c.toNat ∧ c.toNat ≤ 'f'.toNat then some (c.toNat - 'a'.toNat + 10)
  else none

/-- Reading of base-`b` digits, most significant first, onto the value `acc`
read so far. -/
def parse_digits (b : Nat) : List Char → Nat → Option Nat
  | [], acc => some acc
  | c :: s, acc =>
    match digit_value c with
    | some d => if d < b then parse_digits b s (acc * b + d) else none
    | none => none

/-- The value of a base-`b` numeral with lowercase digits and an optional
leading minus sign; `none` when the text is not such a numeral. -/
def parse_numeral (b : Nat) : List Char → Option Int
  | [] => none
  | c :: s =>
    if c = '-' then
      if s = [] then none
      else
        match parse_digits b s 0 with
        | some n => some (-(Int.ofNat n))
        | none => none
    else
      match parse_digits b (c :: s) 0 with
      | some n => some (Int.ofNat n)
      | none => none

/-- The values of the `w`-bit signed type `INT`. -/
def is_INT (w : Nat) (x : Int) : Prop := -(2 ^ (w - 1)) ≤ x ∧ x < 2 ^ (w - 1)

/-- The templates built only from literal characters and properly nested
`%(` / `%)` pairs: `balanced_from d s` tells whether `s` is the rest of such a
template at a place where `d` pairs are open. -/
def balanced_from : Nat → List Char → Bool
  | d, [] => d == 0
  | d, c :: s =>
    if c = '%' then
      match s with
      | [] => false
      | c :: s =>
        if c = '(' then balanced_from (d + 1) s
        else if c = ')' then decide (0 < d) && balanced_from (d - 1) s
        else false
    else balanced_from d s

/-- A template built only from literal characters and properly nested
`%(` / `%)` pairs. -/
def balanced (s : List Char) : Bool := balanced_from 0 s

/-- The nesting level at the end of a template made of literal characters and of
the directives `%(` and `%)`: the number of `%(` minus the number of `%)`.  The
result is `none` for a template that holds any other directive. -/
def nesting : List Char → Option Int
  | [] => some 0
  | c :: s =>
    if c = '%' then
      match s with
      | [] => none
      | c :: s =>
        if c = '(' then
          match nesting s with
          | some l => some (l + 1)
          | none => none
        else if c = ')' then
          match nesting s with
          | some l => some (l - 1)
          | none => none
        else none
    else nesting s

/-- Position `k` of the output `out` holds a newline that is followed by exactly
`n` spaces: the `n` characters after it are spaces and the next one, if there
is one, is not. -/
def indented_at (out : List Char) (k n : Nat) : Bool :=
  out.get? k == some (Char.ofNat 10) &&
    ((out.drop (k + 1)).take n == List.replicate n (Char.ofNat 32)) &&
    ((out.drop (k + 1 + n)).head? != some (Char.ofNat 32))

/-- The continuation of `vprint` after a collaborator has printed: the scan goes
on from the printer state that the collaborator returns, and stops where the
collaborator stopped when it did not return. -/
def and_then (w : Nat) (o : outcome σ Unit) (rest : List Char) (ap : List (arg σ)) :
    outcome σ (List (arg σ)) :=
  match o with
  | .done q _ => vprint w rest q ap
  | .failed q => .failed q
  | .undef f => .undef f

/-- Every `%o` of the template has its label closed: wherever the template holds
the two characters `%o`, an `=` follows further on. -/
def labels_closed : List Char → Bool
  | [] => true
  | c :: s =>
    (if c = '%' then
      match s with
      | [] => true
      | d :: t => if d = 'o' then decide ('=' ∈ t) else true
    else true) && labels_closed s

/-- The argument is not a collaborator whose own print operation reads beyond
the terminator of a template. -/
def arg.tame : arg σ → Prop
  | .plan (some x) => ∀ p, x.print p ≠ .undef .overrun
  | .problem (some x) => ∀ p, x.print p ≠ .undef .overrun
  | .tensor (some x) => ∀ p, x.tensor_print p ≠ .undef .overrun
  | _ => True

mutual
/-- The nesting level at the end of a template: the number of directives `%(`
minus the number of directives `%)` in it.  The template is read the way the
scan reads it: a `%` takes the next character as its directive, and the label of
a `%o`, up to its `=`, holds no directive. -/
def level : List Char → Int
  | [] => 0
  | c :: s =>
    if c = '%' then
      match s with
      | [] => 0
      | d :: t =>
        if d = 'o' then level_o t
        else if d = '(' then level t + 1
        else if d = ')' then level t - 1
        else level t
    else level s
/-- The nesting level at the end of a template that starts inside the label of a
`%o`. -/
def level_o : List Char → Int
  | [] => 0
  | c :: s => if c = '=' then level s else level_o s
end

/-- The argument is not a collaborator that returns with another indentation or
increment than it was called with. -/
def arg.steady : arg σ → Prop
  | .plan (some x) =>
    ∀ p q u, x.print p = .done q u → q.indent = p.indent ∧ q.indent_incr = p.indent_incr
  | .problem (some x) =>
    ∀ p q u, x.print p = .done q u → q.indent = p.indent ∧ q.indent_incr = p.indent_incr
  | .tensor (some x) =>
    ∀ p q u, x.tensor_print p = .done q u → q.indent = p.indent ∧ q.indent_incr = p.indent_incr
  | _ => True

/-- The function of `print.c` that an entry point of a printer stands for. -/
def entry.call (e : entry) (w : Nat) (p : printer σ) (format : List Char)
    (args : List (arg σ)) : outcome σ (List (arg σ)) :=
  match e with
  | .print => Print.print w p format args
  | .vprint => Print.vprint w format p args

/-- The calls that `printer_destroy` can make on a printer. -/
inductive call where
  | putchr (c : Char)
  | cleanup
  | ifree
  deriving DecidableEq, Repr

/-- What a call of `printer_destroy` leaves behind: the state of the sink, the
characters that went to the sink so far, and the calls that were made, in the
order in which they were made. -/
structure destroyed (σ : Type) where
  sink : σ
  out : List Char
  calls : List call

/-- The function `printer_destroy`: `if (p->cleanup) p->cleanup(p);` and then
`X(ifree)(p)`.  The routine `X(ifree)` is not part of the sources at hand; it
releases the storage of the printer and is recorded as the call `ifree`. -/
def printer_destroy (p : printer σ) : destroyed σ :=
  match p.cleanup with
  | some f => { sink := f p.sink, out := p.out, calls := [.cleanup, .ifree] }
  | none => { sink := p.sink, out := p.out, calls := [.ifree] }

/-- The punctuation characters of C (`ispunct` in the C locale): the printing
characters that are neither letters, nor digits, nor the space. -/
def ispunct (c : Char) : Bool :=
  (33 ≤ c.toNat && c.toNat ≤ 47) || (58 ≤ c.toNat && c.toNat ≤ 64) ||
    (91 ≤ c.toNat && c.toNat ≤ 96) || (123 ≤ c.toNat && c.toNat ≤ 126)

/-! ## The printer primitives -/

@[simp] theorem do_putchr_out (p : printer σ) (c : Char) : (do_putchr p c).out = p.out ++ [c] := rfl
@[simp] theorem do_putchr_indent (p : printer σ) (c : Char) : (do_putchr p c).indent = p.indent := rfl
@[simp] theorem do_putchr_indent_incr (p : printer σ) (c : Char) :
    (do_putchr p c).indent_incr = p.indent_incr := rfl
@[simp] theorem do_putchr_sink (p : printer σ) (c : Char) :
    (do_putchr p c).sink = p.putchr p.sink c := rfl
@[simp] theorem do_putchr_putchr (p : printer σ) (c : Char) : (do_putchr p c).putchr = p.putchr := rfl

@[simp] theorem myputs_nil (p : printer σ) : myputs p [] = p := rfl

@[simp] theorem myputs_cons (p : printer σ) (c : Char) (s : List Char) :
    myputs p (c :: s) = myputs (do_putchr p c) s := rfl

theorem myputs_append (p : printer σ) (s t : List Char) :
    myputs p (s ++ t) = myputs (myputs p s) t := by
  induction s generalizing p with
  | nil => rfl
  | cons c s ih => simp [ih]

@[simp] theorem myputs_out (p : printer σ) (s : List Char) : (myputs p s).out = p.out ++ s := by
  induction s generalizing p with
  | nil => simp
  | cons c s ih => simp [ih]

@[simp] theorem myputs_indent (p : printer σ) (s : List Char) : (myputs p s).indent = p.indent := by
  induction s generalizing p with
  | nil => simp
  | cons c s ih => simp [ih]

@[simp] theorem myputs_indent_incr (p : printer σ) (s : List Char) :
    (myputs p s).indent_incr = p.indent_incr := by
  induction s generalizing p with
  | nil => simp
  | cons c s ih => simp [ih]

@[simp] theorem myputs_putchr (p : printer σ) (s : List Char) :
    (myputs p s).putchr = p.putchr := by
  induction s generalizing p with
  | nil => simp
  | cons c s ih => simp [ih]

/-- One call of the sink per character: the sink ends in the state that the
calls `putchr` on the characters of `s`, in order, lead to. -/
theorem myputs_sink (p : printer σ) (s : List Char) :
    (myputs p s).sink = s.foldl p.putchr p.sink := by
  induction s generalizing p with
  | nil => simp
  | cons c s ih => simp [ih]

@[simp] theorem newline_out (p : printer σ) :
    (newline p).out = p.out ++ Char.ofNat 10 :: List.replicate p.indent.toNat (Char.ofNat 32) := by
  simp [newline]

@[simp] theorem newline_indent (p : printer σ) : (newline p).indent = p.indent := by
  simp [newline]

@[simp] theorem newline_indent_incr (p : printer σ) : (newline p).indent_incr = p.indent_incr := by
  simp [newline]

/-! ## Numerals -/

/-- With enough fuel, the digit loop of the standard library does not depend on
the fuel. -/
theorem toDigitsCore_fuel (b : Nat) (hb : 2 ≤ b) : ∀ (n fuel : Nat) (acc : List Char),
    n < fuel → Nat.toDigitsCore b fuel n acc = Nat.toDigits b n ++ acc := by
  intro n
  induction n using Nat.strong_induction_on with
  | _ n ih =>
    intro fuel acc h
    cases fuel with
    | zero => omega
    | succ f =>
      unfold Nat.toDigits
      simp only [Nat.toDigitsCore]
      by_cases h0 : n / b = 0
      · simp [h0]
      · have hlt : n / b < n := by
          have hn : 0 < n := by
            rcases Nat.eq_zero_or_pos n with h1 | h1
            · subst h1; simp at h0
            · exact h1
          exact Nat.div_lt_self hn (by omega)
        simp only [h0, if_false]
        rw [ih (n / b) hlt f _ (by omega), ih (n / b) hlt n _ hlt]
        simp

theorem toDigits_of_lt (b : Nat) (n : Nat) (h : n < b) :
    Nat.toDigits b n = [Nat.digitChar n] := by
  unfold Nat.toDigits
  simp only [Nat.toDigitsCore]
  have h0 : n / b = 0 := Nat.div_eq_of_lt h
  simp [h0, Nat.mod_eq_of_lt h]

theorem toDigits_of_ge (b : Nat) (hb : 2 ≤ b) (n : Nat) (h : b ≤ n) :
    Nat.toDigits b n = Nat.toDigits b (n / b) ++ [Nat.digitChar (n % b)] := by
  have h0 : n / b ≠ 0 := by
    have : 0 < n / b := Nat.div_pos h (by omega)
    omega
  have hlt : n / b < n := Nat.div_lt_self (by omega) (by omega)
  conv_lhs => unfold Nat.toDigits
  simp only [Nat.toDigitsCore, h0, if_false]
  exact toDigitsCore_fuel b hb (n / b) n _ hlt

theorem digit_table_get (d : Nat) (h : d < 16) :
    digit_table.get? d = some (Nat.digitChar d) := by
  interval_cases d <;> rfl

theorem digit_value_digitChar (d : Nat) (h : d < 16) :
    digit_value (Nat.digitChar d) = some d := by
  interval_cases d <;> rfl

theorem putint_digits_step (b : Nat) (hb : 2 ≤ b) (hb16 : b ≤ 16) (room n : Nat)
    (acc : List Char) :
    putint_digits (b : Int) (room + 1) (n : Int) acc =
      if n / b ≠ 0 then putint_digits (b : Int) room ((n / b : Nat) : Int)
        (Nat.digitChar (n % b) :: acc)
      else .ok (Nat.digitChar (n % b) :: acc) := by
  have hb0 : (b : Int) ≠ 0 := by omega
  have hm : n % b < 16 := lt_of_lt_of_le (Nat.mod_lt n (by omega)) hb16
  have h1 : Int.tmod (n : Int) (b : Int) = ((n % b : Nat) : Int) := (Int.ofNat_tmod n b).symm
  have h2 : Int.tdiv (n : Int) (b : Int) = ((n / b : Nat) : Int) := (Int.ofNat_tdiv n b).symm
  have h3 : ¬ (((n % b : Nat) : Int) < 0) := by omega
  rw [putint_digits]
  simp only [hb0, if_false, h1, h2, h3, Int.toNat_ofNat, digit_table_get _ hm]
  by_cases h0 : n / b = 0
  · rw [h0]; rfl
  · have h4 : ((n / b : Nat) : Int) ≠ 0 := by exact_mod_cast h0
    rw [if_pos h4, if_pos h0]

theorem putint_digits_nat (b : Nat) (hb : 2 ≤ b) (hb16 : b ≤ 16) :
    ∀ (room n : Nat) (acc : List Char), n < b ^ (room + 1) →
      putint_digits (b : Int) (room + 1) (n : Int) acc = .ok (Nat.toDigits b n ++ acc) := by
  intro room
  induction room with
  | zero =>
    intro n acc h
    have hn : n < b := by simpa using h
    rw [putint_digits_step b hb hb16, toDigits_of_lt b n hn]
    simp [Nat.div_eq_of_lt hn, Nat.mod_eq_of_lt hn]
  | succ room ih =>
    intro n acc h
    rw [putint_digits_step b hb hb16]
    by_cases hn : n < b
    · rw [toDigits_of_lt b n hn]
      simp [Nat.div_eq_of_lt hn, Nat.mod_eq_of_lt hn]
    · have hge : b ≤ n := by omega
      have h0 : n / b ≠ 0 := by
        have : 0 < n / b := Nat.div_pos hge (by omega)
        omega
      have hdiv : n / b < b ^ (room + 1) := by
        apply Nat.div_lt_of_lt_mul
        calc n < b ^ (room + 1 + 1) := h
          _ = b * b ^ (room + 1) := by ring
      rw [if_pos h0, ih (n / b) _ hdiv, toDigits_of_ge b hb n hge]
      simp

theorem wrapINT_eq (w : Nat) (hw : 1 ≤ w) (y : Int) (h : is_INT w y) : wrapINT w y = y := by
  obtain ⟨h1, h2⟩ := h
  have hpow : (2 : Int) ^ w = 2 * 2 ^ (w - 1) := by
    obtain ⟨k, rfl⟩ : ∃ k, w = k + 1 := ⟨w - 1, by omega⟩
    simp [pow_succ, mul_comm]
  unfold wrapINT
  rw [Int.emod_eq_of_lt (by omega) (by omega)]
  omega

theorem putint_nonneg (w : Nat) (p : printer σ) (b : Nat) (hb : 2 ≤ b) (hb16 : b ≤ 16)
    (x : Int) (h0 : 0 ≤ x) (hx : x.toNat < b ^ BSZ) :
    putint w p x b = .done (myputs p (Nat.toDigits b x.toNat)) () := by
  obtain ⟨n, rfl⟩ := Int.eq_ofNat_of_zero_le h0
  have hn : ¬ ((n : Int) < 0) := by omega
  simp only [Int.toNat_ofNat] at hx ⊢
  unfold putint
  simp only [hn, if_false]
  have := putint_digits_nat b hb hb16 63 n [] (by simpa [BSZ] using hx)
  simp only [BSZ, this, List.append_nil]

theorem putint_neg (w : Nat) (p : printer σ) (b : Nat) (hb : 2 ≤ b) (hb16 : b ≤ 16)
    (x : Int) (hneg : x < 0) (hmin : -(2 ^ (w - 1)) < x) (hx : x.natAbs < b ^ BSZ) :
    putint w p x b = .done (myputs (do_putchr p '-') (Nat.toDigits b x.natAbs)) () := by
  have hw : 1 ≤ w := by
    rcases Nat.eq_zero_or_pos w with h | h
    · subst h; simp at hmin; omega
    · exact h
  have hwrap : wrapINT w (-x) = ((x.natAbs : Nat) : Int) := by
    rw [wrapINT_eq w hw (-x) ⟨by omega, by omega⟩]
    omega
  unfold putint
  simp only [hneg, if_true, hwrap]
  have := putint_digits_nat b hb hb16 63 x.natAbs [] (by simpa [BSZ] using hx)
  simp only [BSZ, this, List.append_nil]

/-- For every value but the most negative one, `putint` in base ten sends the
decimal numeral to the sink. -/
theorem putint_decimal (w : Nat) (p : printer σ) (x : Int) (hmin : -(2 ^ (w - 1)) < x)
    (hx : x.natAbs < 10 ^ BSZ) :
    putint w p x 10 = .done (myputs p (decimal x)) () := by
  by_cases hneg : x < 0
  · have := putint_neg w p 10 (by norm_num) (by norm_num) x hneg hmin hx
    simp only [Nat.cast_ofNat] at this
    rw [this, decimal, if_pos hneg]
    rfl
  · have h0 : 0 ≤ x := by omega
    have hx2 : x.toNat < 10 ^ BSZ := by omega
    have := putint_nonneg w p 10 (by norm_num) (by norm_num) x h0 hx2
    simp only [Nat.cast_ofNat] at this
    have hnat : x.toNat = x.natAbs := by omega
    rw [this, decimal, if_neg hneg, hnat]

theorem natAbs_lt_of_is_INT (w : Nat) (hw : w ≤ 64) (x : Int) (h : is_INT w x) :
    x.natAbs < 10 ^ BSZ ∧ x.natAbs < 16 ^ BSZ := by
  obtain ⟨h1, h2⟩ := h
  have hp : (2 : Int) ^ (w - 1) ≤ 2 ^ 63 := pow_le_pow_right₀ (by norm_num) (by omega)
  have h3 : (x.natAbs : Int) ≤ 2 ^ 63 := by omega
  have h4 : x.natAbs ≤ 2 ^ 63 := by exact_mod_cast h3
  constructor
  · exact lt_of_le_of_lt h4 (by norm_num [BSZ])
  · exact lt_of_le_of_lt h4 (by norm_num [BSZ])

theorem parse_digits_append (b : Nat) (s t : List Char) (acc : Nat) :
    parse_digits b (s ++ t) acc = (parse_digits b s acc).bind (parse_digits b t) := by
  induction s generalizing acc with
  | nil => rfl
  | cons c s ih =>
    simp only [List.cons_append, parse_digits]
    cases digit_value c with
    | none => rfl
    | some d =>
      by_cases hd : d < b
      · simp [hd, ih]
      · simp [hd]

theorem parse_digits_toDigits (b : Nat) (hb : 2 ≤ b) (hb16 : b ≤ 16) (n : Nat) :
    parse_digits b (Nat.toDigits b n) 0 = some n := by
  induction n using Nat.strong_induction_on with
  | _ n ih =>
    by_cases hn : n < b
    · rw [toDigits_of_lt b n hn]
      simp [parse_digits, digit_value_digitChar n (by omega), hn]
    · have hge : b ≤ n := by omega
      have hlt : n / b < n := Nat.div_lt_self (by omega) (by omega)
      have hm : n % b < b := Nat.mod_lt n (by omega)
      rw [toDigits_of_ge b hb n hge, parse_digits_append, ih (n / b) hlt]
      simp [parse_digits, digit_value_digitChar (n % b) (by omega), hm, Nat.div_add_mod']

theorem toDigits_ne_nil (b : Nat) (hb : 2 ≤ b) (n : Nat) : Nat.toDigits b n ≠ [] := by
  by_cases hn : n < b
  · rw [toDigits_of_lt b n hn]; simp
  · rw [toDigits_of_ge b hb n (by omega)]; simp

theorem toDigits_head_ne_minus (b : Nat) (hb : 2 ≤ b) (hb16 : b ≤ 16) (n : Nat) :
    ∃ c s, Nat.toDigits b n = c :: s ∧ c ≠ '-' := by
  have h := parse_digits_toDigits b hb hb16 n
  have hne := toDigits_ne_nil b hb n
  cases hs : Nat.toDigits b n with
  | nil => exact absurd hs hne
  | cons c s =>
    refine ⟨c, s, rfl, ?_⟩
    intro hc
    rw [hs, hc] at h
    simp [parse_digits, digit_value] at h

/-- Round trip of numerals: the base-`b` numeral of an integer, with a minus sign
in front when it is negative, parses back to the integer. -/
theorem parse_numeral_toDigits (b : Nat) (hb : 2 ≤ b) (hb16 : b ≤ 16) (x : Int) :
    parse_numeral b (if x < 0 then '-' :: Nat.toDigits b x.natAbs else Nat.toDigits b x.natAbs)
      = some x := by
  by_cases hneg : x < 0
  · have hval : -((x.natAbs : Nat) : Int) = x := by omega
    simp only [hneg, if_true, parse_numeral, toDigits_ne_nil b hb, if_false,
      parse_digits_toDigits b hb hb16, Int.ofNat_eq_coe, hval]
  · obtain ⟨c, s, hs, hc⟩ := toDigits_head_ne_minus b hb hb16 x.natAbs
    have h := parse_digits_toDigits b hb hb16 x.natAbs
    have hval : ((x.natAbs : Nat) : Int) = x := by omega
    simp only [hneg, if_false]
    rw [hs] at h ⊢
    simp only [parse_numeral, hc, if_false, h, Int.ofNat_eq_coe, hval]

/-! ## The integer emitter `putint` -/

theorem tmod_neg_left (a b : Int) : Int.tmod (-a) b = -(Int.tmod a b) := by
  rw [Int.tmod_def, Int.tmod_def, Int.neg_tdiv]; ring

theorem two_pow_mod_ten (k : Nat) : 2 ^ k % 10 ≠ 0 := by
  have h : 2 ^ k % 10 = 1 ∨ 2 ^ k % 10 = 2 ∨ 2 ^ k % 10 = 4 ∨ 2 ^ k % 10 = 6 ∨
      2 ^ k % 10 = 8 := by
    induction k with
    | zero => simp
    | succ k ih =>
      have hs : 2 ^ (k + 1) = 2 * 2 ^ k := by ring
      omega
  omega

theorem wrapINT_half (w : Nat) (hw : 1 ≤ w) : wrapINT w (2 ^ (w - 1)) = -(2 ^ (w - 1)) := by
  have hpow : (2 : Int) ^ w = 2 * 2 ^ (w - 1) := by
    obtain ⟨k, rfl⟩ : ∃ k, w = k + 1 := ⟨w - 1, by omega⟩
    simp [pow_succ, mul_comm]
  unfold wrapINT
  have h2 : (2 : Int) ^ (w - 1) + 2 ^ (w - 1) = 2 ^ w := by omega
  rw [h2, Int.emod_self]
  omega

/-- Round trip of `putint` on every value of `INT` but the most negative one, in
base 10 and in base 16: the characters sent to the sink parse back to the
value. -/
theorem putint_round_trip (w : Nat) (hw : w ≤ 64) (p : printer σ) (i : Int)
    (hi : is_INT w i) (hmin : i ≠ -(2 ^ (w - 1))) (b : Nat) (hb : b = 10 ∨ b = 16) :
    ∃ s, putint w p i b = .done (myputs p s) () ∧ parse_numeral b s = some i := by
  have hb2 : 2 ≤ b := by omega
  have hb16 : b ≤ 16 := by omega
  have hlt : i.natAbs < b ^ BSZ := by
    rcases hb with rfl | rfl
    · exact (natAbs_lt_of_is_INT w hw i hi).1
    · exact (natAbs_lt_of_is_INT w hw i hi).2
  refine ⟨if i < 0 then '-' :: Nat.toDigits b i.natAbs else Nat.toDigits b i.natAbs, ?_,
    parse_numeral_toDigits b hb2 hb16 i⟩
  by_cases hneg : i < 0
  · have hgt : -(2 ^ (w - 1)) < i := lt_of_le_of_ne hi.1 (Ne.symm hmin)
    rw [putint_neg w p b hb2 hb16 i hneg hgt hlt, if_pos hneg]
    rfl
  · have h0 : 0 ≤ i := by omega
    have hnat : i.toNat = i.natAbs := by omega
    rw [putint_nonneg w p b hb2 hb16 i h0 (by omega), if_neg hneg, hnat]

theorem tmod_most_negative (w : Nat) : Int.tmod (-((2 : Int) ^ (w - 1))) 10 < 0 := by
  rw [tmod_neg_left]
  have h1 : Int.tmod ((2 : Int) ^ (w - 1)) 10 = ((2 ^ (w - 1) % 10 : Nat) : Int) := by
    rw [Int.ofNat_tmod]; norm_cast
  have h2 := two_pow_mod_ten (w - 1)
  omega

/-- The call of `putint` in base 10 on the most negative value of a `w`-bit `INT`
leaves defined behaviour at the first digit. -/
theorem putint_negation_overflow (w : Nat) (hw : 1 ≤ w) (p : printer σ) :
    putint w p (-(2 ^ (w - 1))) 10 = .undef .index := by
  have hpos : (0 : Int) < 2 ^ (w - 1) := by positivity
  have hneg : -((2 : Int) ^ (w - 1)) < 0 := by omega
  have hmod := tmod_most_negative w
  unfold putint
  simp only [hneg, if_true, neg_neg, wrapINT_half w hw, BSZ]
  rw [putint_digits]
  simp [hmod]

/-- C1: at the most negative value `i` of `INT` the round trip of `putint`
breaks.  The value is negative, so `-` is emitted and `i = -i` is computed; the
negation wraps around to the same negative value; the remainder `i % 10` is then
negative, and the digit is read from outside the digit table: the call leaves
defined behaviour instead of emitting a numeral that parses back to `i`. -/
theorem putint_most_negative (w : Nat) (hw : 1 ≤ w) (p : printer σ) :
    is_INT w (-(2 ^ (w - 1))) ∧
      wrapINT w (-(-(2 ^ (w - 1)))) = -(2 ^ (w - 1)) ∧
      Int.tmod (-(2 ^ (w - 1))) 10 < 0 ∧
      putint w p (-(2 ^ (w - 1))) 10 = .undef .index := by
  have hpos : (0 : Int) < 2 ^ (w - 1) := by positivity
  refine ⟨⟨le_refl _, by omega⟩, ?_, tmod_most_negative w, putint_negation_overflow w hw p⟩
  rw [neg_neg]
  exact wrapINT_half w hw

theorem putint_most_negative_witness :
    1 ≤ 64 ∧
      (is_INT 64 (-(2 ^ (64 - 1))) ∧
        wrapINT 64 (-(-(2 ^ (64 - 1)))) = -(2 ^ (64 - 1)) ∧
        Int.tmod (-(2 ^ (64 - 1))) 10 < 0 ∧
        putint 64 fresh (-(2 ^ (64 - 1))) 10 = .undef .index) :=
  ⟨by decide, putint_most_negative 64 (by decide) fresh⟩

/-- The same in base 16, for a 64-bit `INT`: fifteen digits `0` are written, then
the remainder is negative and the read leaves the digit table. -/
theorem putint_most_negative_hex (p : printer σ) :
    putint 64 p (-(2 ^ 63)) 16 = .undef .index := by
  rfl

/-! ## Single directives -/

theorem vprint_nil (w : Nat) (p : printer σ) (ap : List (arg σ)) :
    vprint w [] p ap = .done p ap := by
  rw [vprint]

theorem vprint_literal (w : Nat) (c : Char) (hc : c ≠ '%') (s : List Char) (p : printer σ)
    (ap : List (arg σ)) :
    vprint w (c :: s) p ap = vprint w s (do_putchr p c) ap := by
  conv_lhs => unfold vprint
  simp only [if_neg hc]

theorem vprint_percent_nil (w : Nat) (p : printer σ) (ap : List (arg σ)) :
    vprint w ['%'] p ap = .failed p := by
  rfl

theorem vprint_percent_o (w : Nat) (s : List Char) (p : printer σ) (x : Int)
    (ap : List (arg σ)) :
    vprint w ('%' :: 'o' :: s) p (.INT x :: ap) =
      vprint_o w x s (if x ≠ 0 then do_putchr p '/' else p) ap := by
  rfl

theorem vprint_percent (w : Nat) (c : Char) (hc : c ≠ 'o') (s : List Char) (p : printer σ)
    (ap : List (arg σ)) :
    vprint w ('%' :: c :: s) p ap =
      match vprint_case w c p ap with
      | .done p ap => vprint w s p ap
      | .failed p => .failed p
      | .undef f => .undef f := by
  conv_lhs => unfold vprint
  simp only [if_true, if_neg hc]

theorem vprint_o_nil (w : Nat) (x : Int) (p : printer σ) (ap : List (arg σ)) :
    vprint_o w x [] p ap = .undef .overrun := by
  rw [vprint_o]

theorem vprint_o_cons (w : Nat) (x : Int) (c : Char) (s : List Char) (p : printer σ)
    (ap : List (arg σ)) :
    vprint_o w x (c :: s) p ap =
      if c = '=' then
        if x ≠ 0 then
          match putint w (do_putchr p '=') x 10 with
          | .done p _ => vprint w s p ap
          | .failed p => .failed p
          | .undef f => .undef f
        else vprint w s p ap
      else vprint_o w x s (if x ≠ 0 then do_putchr p c else p) ap := by
  rw [vprint_o]

/-- The label loop of `%o` on a label `L` without `=` that is followed by `=`:
with a non-zero argument the label goes to the sink, with a zero argument
nothing does, and the scan goes on after the `=`. -/
theorem vprint_o_label (w : Nat) (x : Int) (L : List Char) (hL : '=' ∉ L) (rest : List Char)
    (p : printer σ) (ap : List (arg σ)) :
    vprint_o w x (L ++ '=' :: rest) p ap =
      if x ≠ 0 then
        match putint w (do_putchr (myputs p L) '=') x 10 with
        | .done p _ => vprint w rest p ap
        | .failed p => .failed p
        | .undef f => .undef f
      else vprint w rest p ap := by
  induction L generalizing p with
  | nil => rw [List.nil_append, vprint_o_cons]; simp
  | cons c L ih =>
    have hc : c ≠ '=' := fun h => hL (by simp [h])
    have hL2 : '=' ∉ L := fun h => hL (by simp [h])
    rw [List.cons_append, vprint_o_cons, if_neg hc, ih hL2]
    by_cases hx : x = 0
    · simp [hx]
    · simp [hx]

/-- The directive `%o` with a non-zero argument other than the most negative
`INT`: a slash, the label, `=` and the decimal numeral. -/
theorem percent_o_nonzero (w : Nat) (L : List Char) (hL : '=' ∉ L) (rest : List Char)
    (p : printer σ) (x : Int) (hx : x ≠ 0) (hmin : -(2 ^ (w - 1)) < x)
    (hlt : x.natAbs < 10 ^ BSZ) (ap : List (arg σ)) :
    vprint w ('%' :: 'o' :: (L ++ '=' :: rest)) p (.INT x :: ap) =
      vprint w rest (myputs p ('/' :: (L ++ '=' :: decimal x))) ap := by
  rw [vprint_percent_o, vprint_o_label w x L hL, if_pos hx, if_pos hx,
    putint_decimal w _ x hmin hlt]
  simp [myputs_append]

/-- The directive `%o` with the argument zero: nothing goes to the sink and the
scan goes on after the `=`. -/
theorem percent_o_zero (w : Nat) (L : List Char) (hL : '=' ∉ L) (rest : List Char)
    (p : printer σ) (ap : List (arg σ)) :
    vprint w ('%' :: 'o' :: (L ++ '=' :: rest)) p (.INT 0 :: ap) = vprint w rest p ap := by
  rw [vprint_percent_o, vprint_o_label w 0 L hL]
  simp

/-- The label `foo`: the argument 0 gives no output, the argument 7 gives
`/foo=7`; in both cases the template text `foo=` is consumed. -/
theorem percent_o_foo (w : Nat) (p : printer σ) :
    vprint w "%ofoo=".toList p [.INT 0] = .done p [] ∧
      vprint w "%ofoo=".toList p [.INT 7] = .done (myputs p "/foo=7".toList) [] :=
  ⟨rfl, rfl⟩

/-- C2: the directive `%o` at the most negative value of `INT`.  The label and
`=` are consumed, but the decimal value is not emitted: `putint` leaves defined
behaviour (the defect of C1), so the output is not a slash, the label, `=` and
the decimal numeral of the argument. -/
theorem percent_o_most_negative (w : Nat) (hw : 1 ≤ w) (L : List Char) (hL : '=' ∉ L)
    (rest : List Char) (p : printer σ) (ap : List (arg σ)) :
    vprint w ('%' :: 'o' :: (L ++ '=' :: rest)) p (.INT (-(2 ^ (w - 1))) :: ap) =
      .undef .index := by
  have hpos : (0 : Int) < 2 ^ (w - 1) := by positivity
  have hx : -((2 : Int) ^ (w - 1)) ≠ 0 := by omega
  rw [vprint_percent_o, vprint_o_label w _ L hL, if_pos hx, putint_negation_overflow w hw]

theorem percent_o_most_negative_witness :
    (1 ≤ 64 ∧ '=' ∉ "foo".toList) ∧
      vprint 64 ('%' :: 'o' :: ("foo".toList ++ '=' :: [])) fresh
        [.INT (-(2 ^ (64 - 1)))] = .undef .index :=
  ⟨⟨by decide, by decide⟩, percent_o_most_negative 64 (by decide) "foo".toList (by decide) []
    fresh []⟩

theorem vprint_case_M (w : Nat) (p : printer σ) (x : Nat) (ap : List (arg σ)) :
    vprint_case w 'M' p (.md5uint x :: ap) = putbuf p (sprintf_8_8lx (x % 2 ^ 32)) ap := by
  rfl

theorem vprint_case_v (w : Nat) (p : printer σ) (x : Int) (ap : List (arg σ)) :
    vprint_case w 'v' p (.INT x :: ap) =
      if x > 1 then after_print (putint w (myputs p "-x".toList) x 10) ap else .done p ap := by
  rfl

theorem toDigits_length_le (b : Nat) (hb : 2 ≤ b) (n e : Nat) (h : n < b ^ e) (he : 0 < e) :
    (Nat.toDigits b n).length ≤ e :=
  Nat.toDigitsCore_length b hb (n + 1) n e h he

theorem toDigits_mem (b : Nat) (hb : 2 ≤ b) (n : Nat) :
    ∀ c ∈ Nat.toDigits b n, ∃ d, d < b ∧ c = Nat.digitChar d := by
  induction n using Nat.strong_induction_on with
  | _ n ih =>
    intro c hc
    by_cases hn : n < b
    · rw [toDigits_of_lt b n hn] at hc
      exact ⟨n, hn, by simpa using hc⟩
    · have hlt : n / b < n := Nat.div_lt_self (by omega) (by omega)
      rw [toDigits_of_ge b hb n (by omega)] at hc
      rcases List.mem_append.1 hc with h | h
      · exact ih (n / b) hlt c h
      · exact ⟨n % b, Nat.mod_lt n (by omega), by simpa using h⟩

theorem digitChar_mem_table (d : Nat) (h : d < 16) :
    Nat.digitChar d ∈ "0123456789abcdef".toList := by
  interval_cases d <;> decide

theorem parse_digits_zeros (b : Nat) (hb : 2 ≤ b) (k : Nat) :
    parse_digits b (List.replicate k '0') 0 = some 0 := by
  induction k with
  | zero => rfl
  | succ k ih =>
    have h0 : digit_value '0' = some 0 := by rfl
    have hlt : 0 < b := by omega
    simp only [List.replicate_succ, parse_digits, h0, hlt, if_true]
    simpa using ih

/-- The text of `sprintf(buf, "%8.8lx", x)` for an argument below `2^32`: eight
characters, each one of `0`-`9`, `a`-`f`, that read as the number `x` in base
sixteen. -/
theorem sprintf_8_8lx_spec (x : Nat) (hx : x < 2 ^ 32) :
    (sprintf_8_8lx x).length = 8 ∧
      (∀ c ∈ sprintf_8_8lx x, c ∈ "0123456789abcdef".toList) ∧
      parse_digits 16 (sprintf_8_8lx x) 0 = some x := by
  have hlen : (Nat.toDigits 16 x).length ≤ 8 :=
    toDigits_length_le 16 (by norm_num) x 8 (by norm_num at hx ⊢; exact hx) (by norm_num)
  refine ⟨?_, ?_, ?_⟩
  · simp only [sprintf_8_8lx, List.length_append, List.length_replicate]
    omega
  · intro c hc
    simp only [sprintf_8_8lx, List.mem_append] at hc
    rcases hc with h | h
    · have : c = '0' := (List.mem_replicate.1 h).2
      subst this
      decide
    · obtain ⟨d, hd, rfl⟩ := toDigits_mem 16 (by norm_num) x c h
      exact digitChar_mem_table d hd
  · rw [sprintf_8_8lx, parse_digits_append, parse_digits_zeros 16 (by norm_num)]
    exact parse_digits_toDigits 16 (by norm_num) (by norm_num) x

/-- C3: the directive `%M` returns after sending exactly eight characters to the
sink, each one of `0`-`9`, `a`-`f`, that read in base sixteen as the argument
modulo `2^32` (so they are its zero-padded lowercase hexadecimal numeral); the
argument 1 gives `00000001`; the bits above bit 31 have no influence on what is
sent; and the scan goes on behind the directive. -/
theorem percent_M (w : Nat) (p : printer σ) (x : Nat) (rest : List Char) (ap : List (arg σ)) :
    (∃ s : List Char,
      s.length = 8 ∧ (∀ c ∈ s, c ∈ "0123456789abcdef".toList) ∧
      parse_digits 16 s 0 = some (x % 2 ^ 32) ∧
      vprint w ['%', 'M'] p [.md5uint x] = .done (myputs p s) [] ∧
      (∀ k : Nat, vprint w ['%', 'M'] p [.md5uint (x + 2 ^ 32 * k)] = .done (myputs p s) []) ∧
      vprint w ('%' :: 'M' :: rest) p (.md5uint x :: ap) = vprint w rest (myputs p s) ap ∧
      (myputs p s).out = p.out ++ s ∧ (myputs p s).sink = s.foldl p.putchr p.sink ∧
      (myputs p s).indent = p.indent ∧ (myputs p s).indent_incr = p.indent_incr) ∧
    vprint w ['%', 'M'] p [.md5uint 1] = .done (myputs p "00000001".toList) [] ∧
    vprint w ('%' :: 'M' :: rest) p (.md5uint 1 :: ap) =
      vprint w rest (myputs p "00000001".toList) ap ∧
    ∀ k : Nat, vprint w ('%' :: 'M' :: rest) p (.md5uint (x + 2 ^ 32 * k) :: ap) =
      vprint w ('%' :: 'M' :: rest) p (.md5uint x :: ap) := by
  have hstep : ∀ (y : Nat) (r : List Char) (a : List (arg σ)),
      vprint w ('%' :: 'M' :: r) p (.md5uint y :: a) =
        vprint w r (myputs p (sprintf_8_8lx (y % 2 ^ 32))) a := by
    intro y r a
    have hy : y % 2 ^ 32 < 2 ^ 32 := Nat.mod_lt _ (by norm_num)
    have hl := (sprintf_8_8lx_spec _ hy).1
    rw [vprint_percent w 'M' (by decide), vprint_case_M, putbuf, hl]
    simp [BSZ]
  have hspec := sprintf_8_8lx_spec (x % 2 ^ 32) (Nat.mod_lt _ (by norm_num))
  refine ⟨⟨sprintf_8_8lx (x % 2 ^ 32), hspec.1, hspec.2.1, hspec.2.2, ?_, ?_, hstep x rest ap,
    by simp, myputs_sink p _, by simp, by simp⟩, ?_, ?_, ?_⟩
  · rw [hstep x [] [], vprint_nil]
  · intro k
    rw [hstep _ [] [], vprint_nil, Nat.add_mul_mod_self_left]
  · rw [hstep 1 [] [], vprint_nil]; rfl
  · rw [hstep 1]; rfl
  · intro k
    rw [hstep, hstep, Nat.add_mul_mod_self_left]

/-- C4: the directive `%v` returns, having sent nothing to the sink when its
argument is at most 1 (zero and the negative values included) and having sent
`-x` followed by the decimal numeral of the argument when it is greater than 1;
the indentation and the increment stay as they are, and the scan goes on behind
the directive. -/
theorem percent_v (w : Nat) (hw : w ≤ 64) (p : printer σ) (x : Int) (hx : is_INT w x)
    (rest : List Char) (ap : List (arg σ)) :
    ∃ q : printer σ,
      vprint w ['%', 'v'] p [.INT x] = .done q [] ∧
      vprint w ('%' :: 'v' :: rest) p (.INT x :: ap) = vprint w rest q ap ∧
      q.out = p.out ++ (if x ≤ 1 then [] else '-' :: 'x' :: decimal x) ∧
      q.sink = (if x ≤ 1 then [] else '-' :: 'x' :: decimal x).foldl p.putchr p.sink ∧
      q.indent = p.indent ∧ q.indent_incr = p.indent_incr := by
  have hstep : ∀ (r : List Char) (a : List (arg σ)),
      vprint w ('%' :: 'v' :: r) p (.INT x :: a) =
        vprint w r (if x > 1 then myputs p ('-' :: 'x' :: decimal x) else p) a := by
    intro r a
    rw [vprint_percent w 'v' (by decide), vprint_case_v]
    by_cases h1 : x > 1
    · have hmin : -(2 ^ (w - 1)) < x := by
        have : (0 : Int) < 2 ^ (w - 1) := by positivity
        omega
      rw [if_pos h1, if_pos h1, putint_decimal w _ x hmin (natAbs_lt_of_is_INT w hw x hx).1]
      rfl
    · rw [if_neg h1, if_neg h1]
  refine ⟨if x > 1 then myputs p ('-' :: 'x' :: decimal x) else p, ?_, hstep rest ap,
    ?_, ?_, ?_, ?_⟩
  · rw [hstep [] [], vprint_nil]
  · by_cases h1 : x > 1
    · have hle : ¬ x ≤ 1 := by omega
      rw [if_pos h1, if_neg hle, myputs_out]
    · have hle : x ≤ 1 := by omega
      rw [if_neg h1, if_pos hle, List.append_nil]
  · by_cases h1 : x > 1
    · have hle : ¬ x ≤ 1 := by omega
      rw [if_pos h1, if_neg hle, myputs_sink]
    · have hle : x ≤ 1 := by omega
      rw [if_neg h1, if_pos hle]
      rfl
  · by_cases h1 : x > 1
    · rw [if_pos h1, myputs_indent]
    · rw [if_neg h1]
  · by_cases h1 : x > 1
    · rw [if_pos h1, myputs_indent_incr]
    · rw [if_neg h1]

theorem percent_v_witness :
    (64 ≤ 64 ∧ is_INT 64 5) ∧
      ∃ q : printer (List Char),
        vprint 64 ['%', 'v'] fresh [.INT 5] = .done q [] ∧
        q.out = "-x5".toList ∧ q.sink = "-x5".toList ∧ q.indent = 0 ∧ q.indent_incr = 2 := by
  obtain ⟨q, h1, _, h3, h4, h5, h6⟩ :=
    percent_v 64 (by decide) fresh 5 (by unfold is_INT; decide) [] []
  exact ⟨⟨by decide, by unfold is_INT; decide⟩, q, h1, by rw [h3]; rfl, by rw [h4]; rfl,
    by rw [h5]; rfl, by rw [h6]; rfl⟩

/-! ## Indentation -/

theorem vprint_case_open (w : Nat) (p : printer σ) (ap : List (arg σ)) :
    vprint_case w '(' p ap = .done (newline { p with indent := p.indent + p.indent_incr }) ap := by
  rfl

theorem vprint_case_close (w : Nat) (p : printer σ) (ap : List (arg σ)) :
    vprint_case w ')' p ap = .done { p with indent := p.indent - p.indent_incr } ap := by
  rfl

theorem vprint_open (w : Nat) (s : List Char) (p : printer σ) (ap : List (arg σ)) :
    vprint w ('%' :: '(' :: s) p ap =
      vprint w s (newline { p with indent := p.indent + p.indent_incr }) ap := by
  rw [vprint_percent w '(' (by decide), vprint_case_open]

theorem vprint_close (w : Nat) (s : List Char) (p : printer σ) (ap : List (arg σ)) :
    vprint w ('%' :: ')' :: s) p ap =
      vprint w s { p with indent := p.indent - p.indent_incr } ap := by
  rw [vprint_percent w ')' (by decide), vprint_case_close]

theorem nesting_cons (c : Char) (s : List Char) :
    nesting (c :: s) =
      if c = '%' then
        match s with
        | [] => none
        | c :: s =>
          if c = '(' then
            match nesting s with
            | some l => some (l + 1)
            | none => none
          else if c = ')' then
            match nesting s with
            | some l => some (l - 1)
            | none => none
          else none
      else nesting s := by
  conv_lhs => unfold nesting

/-- A template of literal characters, `%(` and `%)` runs to its end whatever
follows it, consumes no argument, moves the indentation by the increment times
its nesting level and leaves the increment as it is. -/
theorem vprint_nesting (w : Nat) : ∀ (n : Nat) (s : List Char), s.length ≤ n →
    ∀ (L : Int) (p : printer σ), nesting s = some L →
      ∃ q : printer σ,
        (∀ (rest : List Char) (ap : List (arg σ)),
          vprint w (s ++ rest) p ap = vprint w rest q ap) ∧
        q.indent = p.indent + L * p.indent_incr ∧ q.indent_incr = p.indent_incr := by
  intro n
  induction n with
  | zero =>
    intro s hs L p hL
    have : s = [] := List.eq_nil_of_length_eq_zero (by omega)
    subst this
    simp only [nesting, Option.some.injEq] at hL
    subst hL
    exact ⟨p, fun rest ap => rfl, by simp, rfl⟩
  | succ n ih =>
    intro s hs L p hL
    cases s with
    | nil =>
      simp only [nesting, Option.some.injEq] at hL
      subst hL
      exact ⟨p, fun rest ap => rfl, by simp, rfl⟩
    | cons c s =>
      rw [nesting_cons] at hL
      by_cases hc : c = '%'
      · subst hc
        rw [if_pos rfl] at hL
        cases s with
        | nil => simp at hL
        | cons d s =>
          have hlen : s.length ≤ n := by simp at hs; omega
          simp only at hL
          by_cases hd : d = '('
          · subst hd
            rw [if_pos rfl] at hL
            cases hN : nesting s with
            | none => rw [hN] at hL; simp at hL
            | some l =>
              rw [hN] at hL
              simp only [Option.some.injEq] at hL
              obtain ⟨q, hq, hi, hk⟩ :=
                ih s hlen l (newline { p with indent := p.indent + p.indent_incr }) hN
              refine ⟨q, fun rest ap => ?_, ?_, ?_⟩
              · rw [List.cons_append, List.cons_append, vprint_open, hq]
              · rw [hi, ← hL]; simp; ring
              · rw [hk]; simp
          · rw [if_neg hd] at hL
            by_cases hd2 : d = ')'
            · subst hd2
              rw [if_pos rfl] at hL
              cases hN : nesting s with
              | none => rw [hN] at hL; simp at hL
              | some l =>
                rw [hN] at hL
                simp only [Option.some.injEq] at hL
                obtain ⟨q, hq, hi, hk⟩ :=
                  ih s hlen l { p with indent := p.indent - p.indent_incr } hN
                refine ⟨q, fun rest ap => ?_, ?_, ?_⟩
                · rw [List.cons_append, List.cons_append, vprint_close, hq]
                · rw [hi, ← hL]; simp; ring
                · rw [hk]
            · rw [if_neg hd2] at hL
              simp at hL
      · rw [if_neg hc] at hL
        have hlen : s.length ≤ n := by simp at hs; omega
        obtain ⟨q, hq, hi, hk⟩ := ih s hlen L (do_putchr p c) hL
        refine ⟨q, fun rest ap => ?_, by rw [hi]; simp, by rw [hk]; simp⟩
        rw [List.cons_append, vprint_literal w c hc, hq]

theorem balanced_from_cons (d : Nat) (c : Char) (s : List Char) :
    balanced_from d (c :: s) =
      if c = '%' then
        match s with
        | [] => false
        | c :: s =>
          if c = '(' then balanced_from (d + 1) s
          else if c = ')' then decide (0 < d) && balanced_from (d - 1) s
          else false
      else balanced_from d s := by
  conv_lhs => unfold balanced_from

theorem nesting_of_balanced_from : ∀ (n : Nat) (s : List Char), s.length ≤ n →
    ∀ d : Nat, balanced_from d s = true → nesting s = some (-(d : Int)) := by
  intro n
  induction n with
  | zero =>
    intro s hs d h
    have : s = [] := List.eq_nil_of_length_eq_zero (by omega)
    subst this
    simp only [balanced_from, beq_iff_eq] at h
    subst h
    rfl
  | succ n ih =>
    intro s hs d h
    cases s with
    | nil =>
      simp only [balanced_from, beq_iff_eq] at h
      subst h
      rfl
    | cons c s =>
      rw [balanced_from_cons] at h
      rw [nesting_cons]
      by_cases hc : c = '%'
      · subst hc
        rw [if_pos rfl] at h ⊢
        cases s with
        | nil => simp at h
        | cons e s =>
          have hlen : s.length ≤ n := by simp at hs; omega
          simp only at h ⊢
          by_cases he : e = '('
          · subst he
            rw [if_pos rfl] at h ⊢
            rw [ih s hlen (d + 1) h]
            simp only [Option.some.injEq]
            push_cast; ring
          · rw [if_neg he] at h ⊢
            by_cases he2 : e = ')'
            · subst he2
              rw [if_pos rfl] at h ⊢
              simp only [Bool.and_eq_true, decide_eq_true_eq] at h
              rw [ih s hlen (d - 1) h.2]
              simp only [Option.some.injEq]
              have : ((d - 1 : Nat) : Int) = (d : Int) - 1 := by omega
              rw [this]; ring
            · rw [if_neg he2] at h
              simp at h
      · rw [if_neg hc] at h ⊢
        exact ih s (by simp at hs; omega) d h

/-- C5: a template built only from literal characters and properly nested
`%(` / `%)` pairs, to any depth, is printed to its end from every printer state,
and the indentation after it is the indentation before it; the increment does
not change. -/
theorem balanced_restores_indent (w : Nat) (s : List Char) (hs : balanced s = true)
    (p : printer σ) (ap : List (arg σ)) :
    ∃ q : printer σ, vprint w s p ap = .done q ap ∧
      q.indent = p.indent ∧ q.indent_incr = p.indent_incr := by
  have hN := nesting_of_balanced_from s.length s (le_refl _) 0 hs
  obtain ⟨q, hq, hi, hk⟩ := vprint_nesting w s.length s (le_refl _) _ p hN
  refine ⟨q, ?_, by rw [hi]; simp, hk⟩
  have := hq [] ap
  rw [List.append_nil, vprint_nil] at this
  exact this

theorem balanced_restores_indent_witness :
    balanced "a%(b%(c%(d%)e%)f%)g".toList = true ∧
      ∃ q : printer (List Char),
        vprint 64 "a%(b%(c%(d%)e%)f%)g".toList fresh [] = .done q [] ∧
        q.indent = fresh.indent ∧ q.indent_incr = fresh.indent_incr :=
  ⟨by decide, balanced_restores_indent 64 "a%(b%(c%(d%)e%)f%)g".toList (by decide) fresh []⟩

/-- C6, counterexample: on a fresh printer the template `%(`, newline, `a` sends
a newline and two spaces for `%(` and then forwards the literal newline as it
is.  That second newline reaches the sink at nesting level 1 (one `%(` executed,
no `%)`), with increment 2, and is followed by `a`, not by 1 * 2 spaces. -/
theorem literal_newline_not_indented :
    vprint 64 "%(\na".toList fresh [] =
        .done { fresh with indent := 2, sink := "\n  \na".toList, out := "\n  \na".toList } [] ∧
      level "%(\n".toList = 1 ∧
      indented_at "\n  \na".toList 0 (1 * 2) = true ∧
      "\n  \na".toList.get? 3 = some (Char.ofNat 10) ∧
      indented_at "\n  \na".toList 3 (1 * 2) = false := by
  refine ⟨rfl, rfl, ?_, rfl, ?_⟩ <;> decide

/-! ## Strings and collaborators -/

theorem vprint_case_s (w : Nat) (p : printer σ) (x : Option (List Char)) (ap : List (arg σ)) :
    vprint_case w 's' p (.str x :: ap) =
      match x with
      | some x => .done (myputs p x) ap
      | none => putnull p ap := by
  cases x <;> rfl

/-- C7: the directive `%s` with a string that is present sends the characters of
the string before its terminator to the sink, in order and one call of the sink
for each; with an absent string it sends the six characters `(null)`.  Nothing
else is sent and the indentation is untouched. -/
theorem percent_s (w : Nat) (p : printer σ) (rest : List Char) (ap : List (arg σ)) :
    (∀ s : List Char, ∃ q : printer σ,
      vprint w ('%' :: 's' :: rest) p (.str (some s) :: ap) = vprint w rest q ap ∧
      q.out = p.out ++ s ∧ q.sink = s.foldl p.putchr p.sink ∧
      q.indent = p.indent ∧ q.indent_incr = p.indent_incr) ∧
    (∃ q : printer σ,
      vprint w ('%' :: 's' :: rest) p (.str none :: ap) = vprint w rest q ap ∧
      q.out = p.out ++ ['(', 'n', 'u', 'l', 'l', ')'] ∧
      q.sink = ['(', 'n', 'u', 'l', 'l', ')'].foldl p.putchr p.sink ∧
      q.indent = p.indent ∧ q.indent_incr = p.indent_incr) ∧
    vprint w ('%' :: 's' :: []) p [.str (some ['a', 'b', 'c'])] =
      .done (myputs p ['a', 'b', 'c']) [] := by
  refine ⟨fun s => ⟨myputs p s, ?_, by simp, myputs_sink p s, by simp, by simp⟩,
    ⟨myputs p "(null)".toList, ?_, ?_, myputs_sink p _, by simp, by simp⟩, ?_⟩
  · rw [vprint_percent w 's' (by decide), vprint_case_s]
  · rw [vprint_percent w 's' (by decide), vprint_case_s]; rfl
  · rw [myputs_out]; rfl
  · rfl

theorem vprint_case_p (w : Nat) (p : printer σ) (x : Option (plan σ)) (ap : List (arg σ)) :
    vprint_case w 'p' p (.plan x :: ap) =
      match x with
      | some x => after_print (x.print p) ap
      | none => putnull p ap := by
  cases x <;> rfl

theorem vprint_case_P (w : Nat) (p : printer σ) (x : Option (problem σ)) (ap : List (arg σ)) :
    vprint_case w 'P' p (.problem x :: ap) =
      match x with
      | some x => after_print (x.print p) ap
      | none => putnull p ap := by
  cases x <;> rfl

theorem vprint_case_T (w : Nat) (p : printer σ) (x : Option (tensor σ)) (ap : List (arg σ)) :
    vprint_case w 'T' p (.tensor x :: ap) =
      match x with
      | some x => after_print (x.tensor_print p) ap
      | none => putnull p ap := by
  cases x <;> rfl

/-- C8: the directives `%p`, `%P` and `%T`.  With a reference that is present the
outcome is that of the collaborator's print operation (for `%T`, of the tensor
routine) applied to the printer as it is at the directive, and the scan goes on
from the state the collaborator returns: the engine sends no character of its
own.  With an absent reference the six characters `(null)` are sent and the
indentation is untouched. -/
theorem percent_p_P_T (w : Nat) (p : printer σ) (rest : List Char) (ap : List (arg σ)) :
    ((∀ x : plan σ, vprint w ('%' :: 'p' :: rest) p (.plan (some x) :: ap) =
        and_then w (x.print p) rest ap) ∧
      (∀ x : problem σ, vprint w ('%' :: 'P' :: rest) p (.problem (some x) :: ap) =
        and_then w (x.print p) rest ap) ∧
      (∀ x : tensor σ, vprint w ('%' :: 'T' :: rest) p (.tensor (some x) :: ap) =
        and_then w (x.tensor_print p) rest ap)) ∧
    ((∀ x : plan σ, vprint w ['%', 'p'] p [.plan (some x)] = after_print (x.print p) []) ∧
      (∀ x : problem σ, vprint w ['%', 'P'] p [.problem (some x)] = after_print (x.print p) []) ∧
      (∀ x : tensor σ, vprint w ['%', 'T'] p [.tensor (some x)] =
        after_print (x.tensor_print p) [])) ∧
    ∃ q : printer σ,
      q.out = p.out ++ ['(', 'n', 'u', 'l', 'l', ')'] ∧
      q.indent = p.indent ∧ q.indent_incr = p.indent_incr ∧
      vprint w ('%' :: 'p' :: rest) p (.plan none :: ap) = vprint w rest q ap ∧
      vprint w ('%' :: 'P' :: rest) p (.problem none :: ap) = vprint w rest q ap ∧
      vprint w ('%' :: 'T' :: rest) p (.tensor none :: ap) = vprint w rest q ap := by
  refine ⟨⟨fun x => ?_, fun x => ?_, fun x => ?_⟩, ⟨fun x => ?_, fun x => ?_, fun x => ?_⟩,
    ⟨myputs p "(null)".toList, ?_, by simp, by simp, ?_, ?_, ?_⟩⟩
  · rw [vprint_percent w 'p' (by decide), vprint_case_p]
    cases h : x.print p <;> simp [h, and_then, after_print, vprint_nil]
  · rw [vprint_percent w 'P' (by decide), vprint_case_P]
    cases h : x.print p <;> simp [h, and_then, after_print, vprint_nil]
  · rw [vprint_percent w 'T' (by decide), vprint_case_T]
    cases h : x.tensor_print p <;> simp [h, and_then, after_print, vprint_nil]
  · rw [vprint_percent w 'p' (by decide), vprint_case_p]
    cases h : x.print p <;> simp [h, and_then, after_print, vprint_nil]
  · rw [vprint_percent w 'P' (by decide), vprint_case_P]
    cases h : x.print p <;> simp [h, and_then, after_print, vprint_nil]
  · rw [vprint_percent w 'T' (by decide), vprint_case_T]
    cases h : x.tensor_print p <;> simp [h, and_then, after_print, vprint_nil]
  · rw [myputs_out]; rfl
  · rw [vprint_percent w 'p' (by decide), vprint_case_p]; rfl
  · rw [vprint_percent w 'P' (by decide), vprint_case_P]; rfl
  · rw [vprint_percent w 'T' (by decide), vprint_case_T]; rfl

/-! ## Templates in sequence -/

theorem vprint_percent_o_args (w : Nat) (s : List Char) (p : printer σ) (ap : List (arg σ)) :
    vprint w ('%' :: 'o' :: s) p ap =
      match ap with
      | .INT x :: ap => vprint_o w x s (if x ≠ 0 then do_putchr p '/' else p) ap
      | _ => .undef .va_arg := by
  conv_lhs => unfold vprint
  simp only [if_true]

/-- A scan that runs to the end of a template `s` stopped at a directive
boundary: with more template `r` behind `s`, the scan goes on in `r` from the
state and the arguments that the scan of `s` alone ends with. -/
theorem vprint_append_aux (w : Nat) : ∀ (n : Nat) (s : List Char), s.length ≤ n →
    (∀ (p : printer σ) (ap : List (arg σ)) (q : printer σ) (aq : List (arg σ)) (r : List Char),
      vprint w s p ap = .done q aq → vprint w (s ++ r) p ap = vprint w r q aq) ∧
    (∀ (x : Int) (p : printer σ) (ap : List (arg σ)) (q : printer σ) (aq : List (arg σ))
      (r : List Char),
      vprint_o w x s p ap = .done q aq → vprint_o w x (s ++ r) p ap = vprint w r q aq) := by
  intro n
  induction n with
  | zero =>
    intro s hs
    have : s = [] := List.eq_nil_of_length_eq_zero (by omega)
    subst this
    refine ⟨fun p ap q aq r h => ?_, fun x p ap q aq r h => ?_⟩
    · rw [vprint_nil] at h
      cases h
      rfl
    · rw [vprint_o_nil] at h
      cases h
  | succ n ih =>
    intro s hs
    cases s with
    | nil =>
      refine ⟨fun p ap q aq r h => ?_, fun x p ap q aq r h => ?_⟩
      · rw [vprint_nil] at h
        cases h
        rfl
      · rw [vprint_o_nil] at h
        cases h
    | cons c s =>
      have hlen : s.length ≤ n := by simp at hs; omega
      refine ⟨fun p ap q aq r h => ?_, fun x p ap q aq r h => ?_⟩
      · by_cases hc : c = '%'
        · subst hc
          cases s with
          | nil => rw [vprint_percent_nil] at h; cases h
          | cons d s =>
            have hlen2 : s.length ≤ n := by simp at hlen; omega
            by_cases hd : d = 'o'
            · subst hd
              rw [vprint_percent_o_args] at h
              rw [List.cons_append, List.cons_append, vprint_percent_o_args]
              split at h
              · exact (ih s hlen2).2 _ _ _ _ _ r h
              · cases h
            · rw [vprint_percent w d hd] at h
              rw [List.cons_append, List.cons_append, vprint_percent w d hd]
              cases hcase : vprint_case w d p ap with
              | done p1 ap1 =>
                rw [hcase] at h
                exact (ih s hlen2).1 _ _ _ _ r h
              | failed p1 => rw [hcase] at h; cases h
              | undef f => rw [hcase] at h; cases h
        · rw [vprint_literal w c hc] at h
          rw [List.cons_append, vprint_literal w c hc]
          exact (ih s hlen).1 _ _ _ _ r h
      · rw [vprint_o_cons] at h
        rw [List.cons_append, vprint_o_cons]
        by_cases hc : c = '='
        · rw [if_pos hc] at h ⊢
          by_cases hx : x = 0
          · rw [if_neg (by simpa using hx)] at h ⊢
            exact (ih s hlen).1 _ _ _ _ r h
          · rw [if_pos hx] at h ⊢
            cases hput : putint w (do_putchr p '=') x 10 with
            | done p1 u =>
              rw [hput] at h
              exact (ih s hlen).1 _ _ _ _ r h
            | failed p1 => rw [hput] at h; cases h
            | undef f => rw [hput] at h; cases h
        · rw [if_neg hc] at h ⊢
          exact (ih s hlen).2 _ _ _ _ _ r h

theorem vprint_append_done (w : Nat) (s r : List Char) (p q : printer σ)
    (ap aq : List (arg σ)) (h : vprint w s p ap = .done q aq) :
    vprint w (s ++ r) p ap = vprint w r q aq :=
  (vprint_append_aux w s.length s (le_refl _)).1 p ap q aq r h

/-- The characters that select a case of the inner `switch` of `vprint`. -/
theorem vprint_case_unknown (w : Nat) (d : Char)
    (hd : d ∉ ['M', 'c', 's', 'd', 'D', 'f', 'e', 'g', 'v', 'o', 'u', 'x', '(', ')', 'p', 'P', 'T'])
    (p : printer σ) (ap : List (arg σ)) :
    vprint_case w d p ap = .failed p := by
  simp only [List.mem_cons, List.mem_singleton, List.not_mem_nil, or_false, not_or] at hd
  obtain ⟨h1, h2, h3, h4, h5, h6, h7, h8, h9, h10, h11, h12, h13, h14, h15, h16, h17⟩ := hd
  unfold vprint_case
  simp only [h1, h2, h3, h4, h5, h6, h7, h8, h9, h11, h12, h13, h14, h15, h16, h17, if_false,
    or_self, assertion_failed]

/-- A `%` followed by a character that selects no case of the inner `switch`
halts the program, in the state the printer is in. -/
theorem vprint_unknown (w : Nat) (d : Char)
    (hd : d ∉ ['M', 'c', 's', 'd', 'D', 'f', 'e', 'g', 'v', 'o', 'u', 'x', '(', ')', 'p', 'P', 'T'])
    (rest : List Char) (p : printer σ) (ap : List (arg σ)) :
    vprint w ('%' :: d :: rest) p ap = .failed p := by
  have ho : d ≠ 'o' := fun h => hd (by simp [h])
  rw [vprint_percent w d ho, vprint_case_unknown w d hd]

/-- C9: an unknown directive is fatal.  When the scan reaches a `%` that is
followed by a letter outside the directive set, that is, when the template
before it has been printed to its end, in state `q`, the call halts on the failed
assertion, and the printer is still in state `q`: the output of the part before
the directive has been sent, nothing is sent for the directive or for what
follows it. -/
theorem unknown_directive_fatal (w : Nat) (pre : List Char) (d : Char) (rest : List Char)
    (hletter : d.isAlpha = true)
    (hd : d ∉ ['M', 'c', 's', 'd', 'D', 'f', 'e', 'g', 'v', 'o', 'u', 'x', 'p', 'P', 'T'])
    (p q : printer σ) (ap aq : List (arg σ)) (hpre : vprint w pre p ap = .done q aq) :
    vprint w (pre ++ '%' :: d :: rest) p ap = .failed q := by
  have h1 : d ≠ '(' := by
    intro h; subst h; exact absurd hletter (by decide)
  have h2 : d ≠ ')' := by
    intro h; subst h; exact absurd hletter (by decide)
  rw [vprint_append_done w pre _ p q ap aq hpre]
  apply vprint_unknown
  simp only [List.mem_cons, List.mem_singleton, List.not_mem_nil, or_false, not_or] at hd ⊢
  tauto

theorem unknown_directive_fatal_witness :
    (Char.isAlpha 'z' = true ∧
      'z' ∉ ['M', 'c', 's', 'd', 'D', 'f', 'e', 'g', 'v', 'o', 'u', 'x', 'p', 'P', 'T'] ∧
      vprint 64 "ab".toList fresh [arg.INT 1] = .done (myputs fresh "ab".toList) [arg.INT 1]) ∧
      vprint 64 ("ab".toList ++ '%' :: 'z' :: "cd".toList) fresh [arg.INT 1] =
        .failed (myputs fresh "ab".toList) :=
  ⟨⟨by decide, by decide, rfl⟩,
    unknown_directive_fatal 64 "ab".toList 'z' "cd".toList (by decide) (by decide) fresh
      (myputs fresh "ab".toList) [arg.INT 1] [arg.INT 1] rfl⟩

/-! ## The scan and the terminator -/

theorem putint_digits_fault (base : Int) : ∀ (room : Nat) (i : Int) (buf : List Char),
    putint_digits base room i buf ≠ .error .overrun := by
  intro room
  induction room with
  | zero => intro i buf; simp [putint_digits]
  | succ room ih =>
    intro i buf
    rw [putint_digits]
    split_ifs
    · simp
    · simp
    · split
      · simp
      · exact ih _ _
    · split <;> simp

theorem putint_no_overrun (w : Nat) (p : printer σ) (i base : Int) :
    putint w p i base ≠ .undef .overrun := by
  unfold putint
  simp only
  split
  · rename_i f hf
    intro h
    simp only [outcome.undef.injEq] at h
    subst h
    exact putint_digits_fault base _ _ _ hf
  · simp

theorem after_print_no_overrun (o : outcome σ Unit) (ap : List (arg σ))
    (h : o ≠ .undef .overrun) : after_print o ap ≠ .undef .overrun := by
  cases o with
  | done q u => simp [after_print]
  | failed q => simp [after_print]
  | undef f => simpa [after_print] using h

theorem after_print_done (o : outcome σ Unit) (ap : List (arg σ)) (q : printer σ)
    (aq : List (arg σ)) (h : after_print o ap = .done q aq) : aq = ap := by
  cases o with
  | done q1 u => cases h; rfl
  | failed q1 => cases h
  | undef f => cases h

theorem putbuf_no_overrun (p : printer σ) (t : List Char) (ap : List (arg σ)) :
    putbuf p t ap ≠ .undef .overrun := by
  unfold putbuf
  split_ifs <;> simp

theorem putbuf_done (p : printer σ) (t : List Char) (ap : List (arg σ)) (q : printer σ)
    (aq : List (arg σ)) (h : putbuf p t ap = .done q aq) : aq = ap := by
  unfold putbuf at h
  split_ifs at h
  cases h
  rfl

/-- A case of the inner `switch` that returns has consumed no argument or the
first one. -/
theorem vprint_case_done (w : Nat) (c : Char) (p q : printer σ) (ap aq : List (arg σ))
    (h : vprint_case w c p ap = .done q aq) : aq = ap ∨ ∃ a, ap = a :: aq := by
  unfold vprint_case at h
  by_cases h0 : c = 'M'
  · rw [if_pos h0] at h
    split at h
    · have e := putbuf_done _ _ _ _ _ h; subst e; exact Or.inr ⟨_, rfl⟩
    · cases h
  rw [if_neg h0] at h
  by_cases h1 : c = 'c'
  · rw [if_pos h1] at h
    split at h
    · cases h; exact Or.inr ⟨_, rfl⟩
    · cases h
  rw [if_neg h1] at h
  by_cases h2 : c = 's'
  · rw [if_pos h2] at h
    split at h
    · cases h; exact Or.inr ⟨_, rfl⟩
    · cases h; exact Or.inr ⟨_, rfl⟩
    · cases h
  rw [if_neg h2] at h
  by_cases h3 : c = 'd'
  · rw [if_pos h3] at h
    split at h
    · have e := putbuf_done _ _ _ _ _ h; subst e; exact Or.inr ⟨_, rfl⟩
    · cases h
  rw [if_neg h3] at h
  by_cases h4 : c = 'D'
  · rw [if_pos h4] at h
    split at h
    · have e := after_print_done _ _ _ _ h; subst e; exact Or.inr ⟨_, rfl⟩
    · cases h
  rw [if_neg h4] at h
  by_cases h5 : c = 'f' ∨ c = 'e' ∨ c = 'g'
  · rw [if_pos h5] at h
    split at h
    · have e := putbuf_done _ _ _ _ _ h; subst e; exact Or.inr ⟨_, rfl⟩
    · cases h
  rw [if_neg h5] at h
  by_cases h6 : c = 'v'
  · rw [if_pos h6] at h
    split at h
    · split at h
      · have e := after_print_done _ _ _ _ h; subst e; exact Or.inr ⟨_, rfl⟩
      · cases h; exact Or.inr ⟨_, rfl⟩
    · cases h
  rw [if_neg h6] at h
  by_cases h7 : c = 'u'
  · rw [if_pos h7] at h
    split at h
    · have e := putbuf_done _ _ _ _ _ h; subst e; exact Or.inr ⟨_, rfl⟩
    · cases h
  rw [if_neg h7] at h
  by_cases h8 : c = 'x'
  · rw [if_pos h8] at h
    split at h
    · have e := putbuf_done _ _ _ _ _ h; subst e; exact Or.inr ⟨_, rfl⟩
    · cases h
  rw [if_neg h8] at h
  by_cases h9 : c = '('
  · rw [if_pos h9] at h
    cases h; exact Or.inl rfl
  rw [if_neg h9] at h
  by_cases h10 : c = ')'
  · rw [if_pos h10] at h
    cases h; exact Or.inl rfl
  rw [if_neg h10] at h
  by_cases h11 : c = 'p'
  · rw [if_pos h11] at h
    split at h
    · have e := after_print_done _ _ _ _ h; subst e; exact Or.inr ⟨_, rfl⟩
    · cases h; exact Or.inr ⟨_, rfl⟩
    · cases h
  rw [if_neg h11] at h
  by_cases h12 : c = 'P'
  · rw [if_pos h12] at h
    split at h
    · have e := after_print_done _ _ _ _ h; subst e; exact Or.inr ⟨_, rfl⟩
    · cases h; exact Or.inr ⟨_, rfl⟩
    · cases h
  rw [if_neg h12] at h
  by_cases h13 : c = 'T'
  · rw [if_pos h13] at h
    split at h
    · have e := after_print_done _ _ _ _ h; subst e; exact Or.inr ⟨_, rfl⟩
    · cases h; exact Or.inr ⟨_, rfl⟩
    · cases h
  rw [if_neg h13] at h
  cases h

/-- A case of the inner `switch` does not read the template: it cannot read
beyond the terminator unless a collaborator does so in its own printing. -/
theorem vprint_case_no_overrun (w : Nat) (c : Char) (p : printer σ) (ap : List (arg σ))
    (hap : ∀ a ∈ ap, arg.tame a) : vprint_case w c p ap ≠ .undef .overrun := by
  unfold vprint_case
  by_cases h0 : c = 'M'
  · rw [if_pos h0]
    split
    · exact putbuf_no_overrun _ _ _
    · intro h; cases h
  rw [if_neg h0]
  by_cases h1 : c = 'c'
  · rw [if_pos h1]
    split
    · intro h; cases h
    · intro h; cases h
  rw [if_neg h1]
  by_cases h2 : c = 's'
  · rw [if_pos h2]
    split
    · intro h; cases h
    · intro h; cases h
    · intro h; cases h
  rw [if_neg h2]
  by_cases h3 : c = 'd'
  · rw [if_pos h3]
    split
    · exact putbuf_no_overrun _ _ _
    · intro h; cases h
  rw [if_neg h3]
  by_cases h4 : c = 'D'
  · rw [if_pos h4]
    split
    · exact after_print_no_overrun _ _ (putint_no_overrun _ _ _ _)
    · intro h; cases h
  rw [if_neg h4]
  by_cases h5 : c = 'f' ∨ c = 'e' ∨ c = 'g'
  · rw [if_pos h5]
    split
    · exact putbuf_no_overrun _ _ _
    · intro h; cases h
  rw [if_neg h5]
  by_cases h6 : c = 'v'
  · rw [if_pos h6]
    split
    · split
      · exact after_print_no_overrun _ _ (putint_no_overrun _ _ _ _)
      · intro h; cases h
    · intro h; cases h
  rw [if_neg h6]
  by_cases h7 : c = 'u'
  · rw [if_pos h7]
    split
    · exact putbuf_no_overrun _ _ _
    · intro h; cases h
  rw [if_neg h7]
  by_cases h8 : c = 'x'
  · rw [if_pos h8]
    split
    · exact putbuf_no_overrun _ _ _
    · intro h; cases h
  rw [if_neg h8]
  by_cases h9 : c = '('
  · rw [if_pos h9]
    intro h; cases h
  rw [if_neg h9]
  by_cases h10 : c = ')'
  · rw [if_pos h10]
    intro h; cases h
  rw [if_neg h10]
  by_cases h11 : c = 'p'
  · rw [if_pos h11]
    split
    · exact after_print_no_overrun _ _ ((hap _ (List.mem_cons_self _ _)) _)
    · intro h; cases h
    · intro h; cases h
  rw [if_neg h11]
  by_cases h12 : c = 'P'
  · rw [if_pos h12]
    split
    · exact after_print_no_overrun _ _ ((hap _ (List.mem_cons_self _ _)) _)
    · intro h; cases h
    · intro h; cases h
  rw [if_neg h12]
  by_cases h13 : c = 'T'
  · rw [if_pos h13]
    split
    · exact after_print_no_overrun _ _ ((hap _ (List.mem_cons_self _ _)) _)
    · intro h; cases h
    · intro h; cases h
  rw [if_neg h13]
  intro h; cases h

theorem labels_closed_tail (c : Char) (s : List Char) (h : labels_closed (c :: s) = true) :
    labels_closed s = true := by
  unfold labels_closed at h
  simp only [Bool.and_eq_true] at h
  exact h.2

theorem labels_closed_label (t : List Char) (h : labels_closed ('%' :: 'o' :: t) = true) :
    '=' ∈ t := by
  unfold labels_closed at h
  simp only [Bool.and_eq_true, if_true, decide_eq_true_eq] at h
  exact h.1

theorem tame_of_done (w : Nat) (c : Char) (p q : printer σ) (ap aq : List (arg σ))
    (h : vprint_case w c p ap = .done q aq) (hap : ∀ a ∈ ap, arg.tame a) :
    ∀ a ∈ aq, arg.tame a := by
  rcases vprint_case_done w c p q ap aq h with e | ⟨a0, e⟩
  · rw [e]; exact hap
  · intro a ha
    exact hap a (by rw [e]; exact List.mem_cons_of_mem _ ha)

/-- In a template whose labels are closed, neither the scan nor the label loop
reads beyond the terminator. -/
theorem vprint_no_overrun_aux (w : Nat) : ∀ (n : Nat) (s : List Char), s.length ≤ n →
    labels_closed s = true →
    (∀ (p : printer σ) (ap : List (arg σ)), (∀ a ∈ ap, arg.tame a) →
      vprint w s p ap ≠ .undef .overrun) ∧
    (∀ (x : Int) (p : printer σ) (ap : List (arg σ)), '=' ∈ s → (∀ a ∈ ap, arg.tame a) →
      vprint_o w x s p ap ≠ .undef .overrun) := by
  intro n
  induction n with
  | zero =>
    intro s hs _
    have : s = [] := List.eq_nil_of_length_eq_zero (by omega)
    subst this
    refine ⟨fun p ap _ => ?_, fun x p ap he _ => ?_⟩
    · rw [vprint_nil]; intro h; cases h
    · simp at he
  | succ n ih =>
    intro s hs hcl
    cases s with
    | nil =>
      refine ⟨fun p ap _ => ?_, fun x p ap he _ => ?_⟩
      · rw [vprint_nil]; intro h; cases h
      · simp at he
    | cons c s =>
      have hlen : s.length ≤ n := by simp at hs; omega
      have hcl1 := labels_closed_tail c s hcl
      refine ⟨fun p ap hap => ?_, fun x p ap he hap => ?_⟩
      · by_cases hc : c = '%'
        · subst hc
          cases s with
          | nil => rw [vprint_percent_nil]; intro h; cases h
          | cons d t =>
            have hlen2 : t.length ≤ n := by simp at hlen; omega
            have hcl2 := labels_closed_tail d t hcl1
            by_cases hd : d = 'o'
            · subst hd
              rw [vprint_percent_o_args]
              split
              · rename_i x ap1
                exact (ih t hlen2 hcl2).2 x _ ap1 (labels_closed_label t hcl)
                  (fun a ha => hap a (List.mem_cons_of_mem _ ha))
              · intro h; cases h
            · rw [vprint_percent w d hd]
              cases hcase : vprint_case w d p ap with
              | done p1 ap1 =>
                exact (ih t hlen2 hcl2).1 p1 ap1 (tame_of_done w d p p1 ap ap1 hcase hap)
              | failed p1 => intro h; cases h
              | undef f =>
                intro h
                cases h
                exact vprint_case_no_overrun w d p ap hap hcase
        · rw [vprint_literal w c hc]
          exact (ih s hlen hcl1).1 _ ap hap
      · rw [vprint_o_cons]
        by_cases hc : c = '='
        · rw [if_pos hc]
          by_cases hx : x = 0
          · rw [if_neg (by simpa using hx)]
            exact (ih s hlen hcl1).1 _ ap hap
          · rw [if_pos hx]
            cases hput : putint w (do_putchr p '=') x 10 with
            | done p1 u => exact (ih s hlen hcl1).1 p1 ap hap
            | failed p1 => intro h; cases h
            | undef f =>
              intro h
              cases h
              exact putint_no_overrun w _ x 10 hput
        · rw [if_neg hc]
          have he2 : '=' ∈ s := by
            rcases List.mem_cons.1 he with h | h
            · exact absurd h.symm hc
            · exact h
          exact (ih s hlen hcl1).2 x _ ap he2 hap

/-- The template `%oab` has no `=` to close the label.  The label loop of
`case 'o'` reads `a`, `b`, the terminator, and then reads beyond the terminator,
whether the argument is zero or not. -/
theorem open_label_overruns :
    vprint 64 "%oab".toList fresh [arg.INT 1] = .undef .overrun ∧
      vprint 64 "%oab".toList fresh [arg.INT 0] = .undef .overrun ∧
      labels_closed "%oab".toList = false :=
  ⟨rfl, rfl, by decide⟩

/-- The label loop of `case 'o'` on a rest of the template without `=`: the loop
reads the terminator and goes on reading beyond it. -/
theorem vprint_o_open (w : Nat) (x : Int) (L : List Char) (hL : '=' ∉ L) (p : printer σ)
    (ap : List (arg σ)) :
    vprint_o w x L p ap = .undef .overrun := by
  induction L generalizing p with
  | nil => exact vprint_o_nil w x p ap
  | cons c L ih =>
    have hc : c ≠ '=' := fun h => hL (by simp [h])
    have hL2 : '=' ∉ L := fun h => hL (by simp [h])
    rw [vprint_o_cons, if_neg hc]
    exact ih hL2 _

/-- C10: a print call does not always end at the terminator or at an unknown
directive.  When the scan reaches a `%o` (the template before it has been
printed to its end and the next argument is an `INT`) whose label is not closed
by an `=` before the terminator, the label loop, which unlike the outer loop
does not test for the terminator, reads the terminator and then reads beyond
it. -/
theorem unclosed_label_reads_beyond (w : Nat) (pre L : List Char) (hL : '=' ∉ L) (x : Int)
    (p q : printer σ) (ap aq : List (arg σ))
    (hpre : vprint w pre p ap = .done q (.INT x :: aq)) :
    vprint w (pre ++ '%' :: 'o' :: L) p ap = .undef .overrun := by
  rw [vprint_append_done w pre _ p q ap _ hpre, vprint_percent_o_args]
  exact vprint_o_open w x L hL _ aq

theorem unclosed_label_reads_beyond_witness :
    ('=' ∉ "ab".toList ∧
      vprint 64 "n".toList fresh [arg.INT 1] = .done (myputs fresh "n".toList) [arg.INT 1]) ∧
      vprint 64 ("n".toList ++ '%' :: 'o' :: "ab".toList) fresh [arg.INT 1] = .undef .overrun :=
  ⟨⟨by decide, rfl⟩,
    unclosed_label_reads_beyond 64 "n".toList "ab".toList (by decide) 1 fresh
      (myputs fresh "n".toList) [arg.INT 1] [] rfl⟩

/-- For every template in which each `%o` is followed, further on, by an `=`,
and for every argument list (no collaborator among the arguments reading beyond
the terminator of a template in its own printing), the scan never reads beyond
the terminator of the template: the call returns, which it does only when the
scan reads the terminator, or it halts on a failed assertion, or it stops on a
fault that is not a read beyond the terminator. -/
theorem scan_within_template (w : Nat) (fmt : List Char) (hfmt : labels_closed fmt = true)
    (p : printer σ) (ap : List (arg σ)) (hap : ∀ a ∈ ap, arg.tame a) :
    (∃ q aq, vprint w fmt p ap = .done q aq) ∨ (∃ q, vprint w fmt p ap = .failed q) ∨
      (∃ f, vprint w fmt p ap = .undef f ∧ f ≠ .overrun) := by
  have h := (vprint_no_overrun_aux w fmt.length fmt (le_refl _) hfmt).1 p ap hap
  cases hv : vprint w fmt p ap with
  | done q aq => exact Or.inl ⟨q, aq, rfl⟩
  | failed q => exact Or.inr (Or.inl ⟨q, rfl⟩)
  | undef f =>
    refine Or.inr (Or.inr ⟨f, rfl, ?_⟩)
    intro hf
    rw [hv, hf] at h
    exact h rfl

theorem scan_within_template_example :
    (∃ q aq, vprint 64 "%ofoo=%d%z".toList fresh [arg.INT 7, arg.int 3] = .done q aq) ∨
      (∃ q, vprint 64 "%ofoo=%d%z".toList fresh [arg.INT 7, arg.int 3] = .failed q) ∨
      (∃ f, vprint 64 "%ofoo=%d%z".toList fresh [arg.INT 7, arg.int 3] = .undef f ∧
        f ≠ .overrun) :=
  scan_within_template 64 "%ofoo=%d%z".toList (by decide) fresh [arg.INT 7, arg.int 3] (by
    intro a ha
    simp only [List.mem_cons, List.mem_singleton, List.not_mem_nil, or_false] at ha
    rcases ha with rfl | rfl <;> exact True.intro)

theorem putint_indent (w : Nat) (p : printer σ) (i base : Int) (q : printer σ) (u : Unit)
    (h : putint w p i base = .done q u) :
    q.indent = p.indent ∧ q.indent_incr = p.indent_incr := by
  unfold putint at h
  simp only at h
  split at h
  · cases h
  · cases h
    split_ifs <;> simp

theorem putbuf_indent (p : printer σ) (t : List Char) (ap : List (arg σ)) (q : printer σ)
    (aq : List (arg σ)) (h : putbuf p t ap = .done q aq) :
    q.indent = p.indent ∧ q.indent_incr = p.indent_incr := by
  unfold putbuf at h
  split_ifs at h
  cases h
  simp

theorem after_print_indent (o : outcome σ Unit) (ap : List (arg σ)) (p q : printer σ)
    (aq : List (arg σ))
    (ho : ∀ q1 u, o = .done q1 u → q1.indent = p.indent ∧ q1.indent_incr = p.indent_incr)
    (h : after_print o ap = .done q aq) :
    q.indent = p.indent ∧ q.indent_incr = p.indent_incr := by
  cases o with
  | done q1 u => cases h; exact ho _ u rfl
  | failed q1 => cases h
  | undef f => cases h

/-- A case of the inner `switch` other than `(` and `)` returns with the
indentation and the increment it was entered with, as long as the collaborators
do. -/
theorem vprint_case_indent (w : Nat) (c : Char) (hopen : c ≠ '(') (hclose : c ≠ ')')
    (p q : printer σ) (ap aq : List (arg σ)) (hap : ∀ a ∈ ap, arg.steady a)
    (h : vprint_case w c p ap = .done q aq) :
    q.indent = p.indent ∧ q.indent_incr = p.indent_incr := by
  unfold vprint_case at h
  by_cases h0 : c = 'M'
  · rw [if_pos h0] at h
    split at h
    · exact putbuf_indent _ _ _ _ _ h
    · cases h
  rw [if_neg h0] at h
  by_cases h1 : c = 'c'
  · rw [if_pos h1] at h
    split at h
    · cases h; simp [putnull]
    · cases h
  rw [if_neg h1] at h
  by_cases h2 : c = 's'
  · rw [if_pos h2] at h
    split at h
    · cases h; simp [putnull]
    · cases h; simp [putnull]
    · cases h
  rw [if_neg h2] at h
  by_cases h3 : c = 'd'
  · rw [if_pos h3] at h
    split at h
    · exact putbuf_indent _ _ _ _ _ h
    · cases h
  rw [if_neg h3] at h
  by_cases h4 : c = 'D'
  · rw [if_pos h4] at h
    split at h
    · exact after_print_indent _ _ _ _ _ (fun q1 u hq => putint_indent _ _ _ _ _ _ hq) h
    · cases h
  rw [if_neg h4] at h
  by_cases h5 : c = 'f' ∨ c = 'e' ∨ c = 'g'
  · rw [if_pos h5] at h
    split at h
    · exact putbuf_indent _ _ _ _ _ h
    · cases h
  rw [if_neg h5] at h
  by_cases h6 : c = 'v'
  · rw [if_pos h6] at h
    split at h
    · split at h
      · have := after_print_indent _ _ (myputs p "-x".toList) _ _
          (fun q1 u hq => putint_indent _ _ _ _ _ _ hq) h
        simpa using this
      · cases h; exact ⟨rfl, rfl⟩
    · cases h
  rw [if_neg h6] at h
  by_cases h7 : c = 'u'
  · rw [if_pos h7] at h
    split at h
    · exact putbuf_indent _ _ _ _ _ h
    · cases h
  rw [if_neg h7] at h
  by_cases h8 : c = 'x'
  · rw [if_pos h8] at h
    split at h
    · exact putbuf_indent _ _ _ _ _ h
    · cases h
  rw [if_neg h8] at h
  by_cases h9 : c = '('
  · exact absurd h9 hopen
  rw [if_neg h9] at h
  by_cases h10 : c = ')'
  · exact absurd h10 hclose
  rw [if_neg h10] at h
  by_cases h11 : c = 'p'
  · rw [if_pos h11] at h
    split at h
    · exact after_print_indent _ _ _ _ _ (fun q1 u hq => (hap _ (List.mem_cons_self _ _)) _ q1 u hq) h
    · cases h; simp [putnull]
    · cases h
  rw [if_neg h11] at h
  by_cases h12 : c = 'P'
  · rw [if_pos h12] at h
    split at h
    · exact after_print_indent _ _ _ _ _ (fun q1 u hq => (hap _ (List.mem_cons_self _ _)) _ q1 u hq) h
    · cases h; simp [putnull]
    · cases h
  rw [if_neg h12] at h
  by_cases h13 : c = 'T'
  · rw [if_pos h13] at h
    split at h
    · exact after_print_indent _ _ _ _ _ (fun q1 u hq => (hap _ (List.mem_cons_self _ _)) _ q1 u hq) h
    · cases h; simp [putnull]
    · cases h
  rw [if_neg h13] at h
  cases h

theorem level_cons (c : Char) (s : List Char) :
    level (c :: s) =
      if c = '%' then
        match s with
        | [] => 0
        | d :: t =>
          if d = 'o' then level_o t
          else if d = '(' then level t + 1
          else if d = ')' then level t - 1
          else level t
      else level s := by
  conv_lhs => unfold level

theorem level_o_cons (c : Char) (s : List Char) :
    level_o (c :: s) = if c = '=' then level s else level_o s := by
  conv_lhs => unfold level_o

theorem steady_of_done (w : Nat) (c : Char) (p q : printer σ) (ap aq : List (arg σ))
    (h : vprint_case w c p ap = .done q aq) (hap : ∀ a ∈ ap, arg.steady a) :
    ∀ a ∈ aq, arg.steady a := by
  rcases vprint_case_done w c p q ap aq h with e | ⟨a0, e⟩
  · rw [e]; exact hap
  · intro a ha
    exact hap a (by rw [e]; exact List.mem_cons_of_mem _ ha)

/-- The indentation after a scan that returns: the indentation before it plus the
increment times the nesting level of the template; the increment is unchanged. -/
theorem vprint_level_aux (w : Nat) : ∀ (n : Nat) (s : List Char), s.length ≤ n →
    (∀ (p : printer σ) (ap : List (arg σ)) (q : printer σ) (aq : List (arg σ)),
      (∀ a ∈ ap, arg.steady a) → vprint w s p ap = .done q aq →
      q.indent = p.indent + level s * p.indent_incr ∧ q.indent_incr = p.indent_incr) ∧
    (∀ (x : Int) (p : printer σ) (ap : List (arg σ)) (q : printer σ) (aq : List (arg σ)),
      (∀ a ∈ ap, arg.steady a) → vprint_o w x s p ap = .done q aq →
      q.indent = p.indent + level_o s * p.indent_incr ∧ q.indent_incr = p.indent_incr) := by
  intro n
  induction n with
  | zero =>
    intro s hs
    have : s = [] := List.eq_nil_of_length_eq_zero (by omega)
    subst this
    refine ⟨fun p ap q aq _ h => ?_, fun x p ap q aq _ h => ?_⟩
    · rw [vprint_nil] at h
      cases h
      simp [level]
    · rw [vprint_o_nil] at h
      cases h
  | succ n ih =>
    intro s hs
    cases s with
    | nil =>
      refine ⟨fun p ap q aq _ h => ?_, fun x p ap q aq _ h => ?_⟩
      · rw [vprint_nil] at h
        cases h
        simp [level]
      · rw [vprint_o_nil] at h
        cases h
    | cons c s =>
      have hlen : s.length ≤ n := by simp at hs; omega
      refine ⟨fun p ap q aq hap h => ?_, fun x p ap q aq hap h => ?_⟩
      · rw [level_cons]
        by_cases hc : c = '%'
        · subst hc
          rw [if_pos rfl]
          cases s with
          | nil => rw [vprint_percent_nil] at h; cases h
          | cons d t =>
            have hlen2 : t.length ≤ n := by simp at hlen; omega
            simp only
            by_cases hd : d = 'o'
            · subst hd
              rw [if_pos rfl]
              rw [vprint_percent_o_args] at h
              split at h
              · rename_i x ap1
                have := (ih t hlen2).2 x _ ap1 q aq
                  (fun a ha => hap a (List.mem_cons_of_mem _ ha)) h
                by_cases hx : x = 0
                · simpa [hx] using this
                · simpa [hx] using this
              · cases h
            · rw [if_neg hd]
              rw [vprint_percent w d hd] at h
              cases hcase : vprint_case w d p ap with
              | done p1 ap1 =>
                rw [hcase] at h
                have hst := steady_of_done w d p p1 ap ap1 hcase hap
                obtain ⟨hi, hk⟩ := (ih t hlen2).1 p1 ap1 q aq hst h
                by_cases ho : d = '('
                · subst ho
                  rw [vprint_case_open] at hcase
                  cases hcase
                  rw [if_pos rfl]
                  simp only [newline_indent, newline_indent_incr] at hi hk
                  exact ⟨by rw [hi]; ring, hk⟩
                · rw [if_neg ho]
                  by_cases hcl : d = ')'
                  · subst hcl
                    rw [vprint_case_close] at hcase
                    cases hcase
                    rw [if_pos rfl]
                    simp only at hi hk
                    exact ⟨by rw [hi]; ring, hk⟩
                  · rw [if_neg hcl]
                    obtain ⟨hi1, hk1⟩ := vprint_case_indent w d ho hcl p p1 ap ap1 hap hcase
                    exact ⟨by rw [hi, hi1, hk1], by rw [hk, hk1]⟩
              | failed p1 => rw [hcase] at h; cases h
              | undef f => rw [hcase] at h; cases h
        · rw [if_neg hc]
          rw [vprint_literal w c hc] at h
          simpa using (ih s hlen).1 _ ap q aq hap h
      · rw [level_o_cons]
        rw [vprint_o_cons] at h
        by_cases hc : c = '='
        · rw [if_pos hc] at h ⊢
          by_cases hx : x = 0
          · rw [if_neg (by simpa using hx)] at h
            exact (ih s hlen).1 _ ap q aq hap h
          · rw [if_pos hx] at h
            cases hput : putint w (do_putchr p '=') x 10 with
            | done p1 u =>
              rw [hput] at h
              obtain ⟨hi, hk⟩ := (ih s hlen).1 p1 ap q aq hap h
              obtain ⟨hi1, hk1⟩ := putint_indent w _ x 10 p1 u hput
              simp only [do_putchr_indent, do_putchr_indent_incr] at hi1 hk1
              exact ⟨by rw [hi, hi1, hk1], by rw [hk, hk1]⟩
            | failed p1 => rw [hput] at h; cases h
            | undef f => rw [hput] at h; cases h
        · rw [if_neg hc] at h ⊢
          have := (ih s hlen).2 x _ ap q aq hap h
          by_cases hx : x = 0
          · simpa [hx] using this
          · simpa [hx] using this

/-- C6, amended: on a freshly created printer, after a template `pre` that has
been printed to its end (the collaborators among the arguments returning with
the indentation they were called with), a directive `%(` that brings the nesting
level to `L = level pre + 1 ≥ 0` sends to the sink one newline followed by
exactly `L * 2` spaces, and nothing else; the indentation is then `L * 2`.  A
literal newline at the same place is forwarded alone, with no space after it. -/
theorem newline_indentation (w : Nat) (size : Nat) (putchr : σ → Char → σ)
    (cleanup : Option (σ → σ)) (s0 : σ) (pre : List Char) (ap aq : List (arg σ))
    (p1 : printer σ) (hap : ∀ a ∈ ap, arg.steady a)
    (hpre : vprint w pre (mkprinter size putchr cleanup s0) ap = .done p1 aq)
    (hL : 0 ≤ level pre + 1) (rest : List Char) :
    (∃ p2 : printer σ,
      vprint w (pre ++ '%' :: '(' :: rest) (mkprinter size putchr cleanup s0) ap =
        vprint w rest p2 aq ∧
      p2.out = p1.out ++
        Char.ofNat 10 :: List.replicate ((level pre + 1).toNat * 2) (Char.ofNat 32) ∧
      p2.indent = (level pre + 1) * 2 ∧ p2.indent_incr = 2) ∧
    vprint w (pre ++ Char.ofNat 10 :: rest) (mkprinter size putchr cleanup s0) ap =
      vprint w rest (do_putchr p1 (Char.ofNat 10)) aq := by
  obtain ⟨hi, hk⟩ := (vprint_level_aux w pre.length pre (le_refl _)).1 _ ap p1 aq hap hpre
  have hi2 : p1.indent = level pre * 2 := by rw [hi]; simp [mkprinter]
  have hk2 : p1.indent_incr = 2 := by rw [hk]; rfl
  refine ⟨⟨newline { p1 with indent := p1.indent + p1.indent_incr }, ?_, ?_, ?_, ?_⟩, ?_⟩
  · rw [vprint_append_done w pre _ _ p1 ap aq hpre, vprint_open]
  · have hn : (level pre * 2 + 2).toNat = (level pre + 1).toNat * 2 := by omega
    simp [hi2, hk2, hn]
  · simp [hi2, hk2]; ring
  · simp [hk2]
  · rw [vprint_append_done w pre _ _ p1 ap aq hpre, vprint_literal w _ (by decide)]

theorem newline_indentation_witness :
    ((∀ a ∈ [(arg.INT 3 : arg (List Char))], arg.steady a) ∧
      vprint 64 "a%(b%(c%)%on=".toList (mkprinter 0 (fun s c => s ++ [c]) none [])
          [arg.INT 3] =
        .done { (mkprinter 0 (fun s c => s ++ [c]) none [] : printer (List Char)) with
          indent := 2, sink := "a\n  b\n    c/n=3".toList,
          out := "a\n  b\n    c/n=3".toList } [] ∧
      (0 : Int) ≤ level "a%(b%(c%)%on=".toList + 1) ∧
    (∃ p2 : printer (List Char),
      vprint 64 ("a%(b%(c%)%on=".toList ++ '%' :: '(' :: "d".toList)
          (mkprinter 0 (fun s c => s ++ [c]) none []) [arg.INT 3] =
        vprint 64 "d".toList p2 [] ∧
      p2.out = "a\n  b\n    c/n=3".toList ++
        Char.ofNat 10 ::
          List.replicate ((level "a%(b%(c%)%on=".toList + 1).toNat * 2) (Char.ofNat 32) ∧
      p2.indent = (level "a%(b%(c%)%on=".toList + 1) * 2 ∧ p2.indent_incr = 2) ∧
    vprint 64 ("a%(b%(c%)%on=".toList ++ Char.ofNat 10 :: "d".toList)
        (mkprinter 0 (fun s c => s ++ [c]) none []) [arg.INT 3] =
      vprint 64 "d".toList
        (do_putchr { (mkprinter 0 (fun s c => s ++ [c]) none [] : printer (List Char)) with
          indent := 2, sink := "a\n  b\n    c/n=3".toList,
          out := "a\n  b\n    c/n=3".toList } (Char.ofNat 10)) [] :=
  ⟨⟨by
      intro a ha
      simp only [List.mem_singleton] at ha
      subst ha
      exact True.intro, rfl, by decide⟩,
    newline_indentation 64 0 (fun s c => s ++ [c]) none [] "a%(b%(c%)%on=".toList
      [arg.INT 3] [] _ (by
        intro a ha
        simp only [List.mem_singleton] at ha
        subst ha
        exact True.intro) rfl (by decide) "d".toList⟩

/-! ## Literal text and whole templates -/

/-- A run of literal characters goes to the sink as it is, and the scan goes on
behind it. -/
theorem vprint_literals (w : Nat) (s : List Char) (hs : '%' ∉ s) (rest : List Char)
    (p : printer σ) (ap : List (arg σ)) :
    vprint w (s ++ rest) p ap = vprint w rest (myputs p s) ap := by
  induction s generalizing p with
  | nil => rfl
  | cons c s ih =>
    have hc : c ≠ '%' := fun h => hs (by simp [h])
    have hs2 : '%' ∉ s := fun h => hs (by simp [h])
    rw [List.cons_append, vprint_literal w c hc, ih hs2]
    rfl

theorem sprintf_d_eq (x : Int) : sprintf_d x = decimal x := rfl

theorem decimal_length_lt (x : Int) (hx : x.natAbs < 10 ^ 62) : (decimal x).length < BSZ := by
  have h := toDigits_length_le 10 (by norm_num) x.natAbs 62 hx (by norm_num)
  unfold decimal BSZ
  split_ifs
  · simp only [List.length_cons]; omega
  · omega

theorem vprint_case_d (w : Nat) (p : printer σ) (x : Int) (ap : List (arg σ)) :
    vprint_case w 'd' p (.int x :: ap) = putbuf p (sprintf_d x) ap := by
  rfl

/-- The directive `%d` on an `int` whose numeral fits the buffer: the decimal
numeral. -/
theorem percent_d_step (w : Nat) (p : printer σ) (x : Int) (hx : x.natAbs < 10 ^ 62)
    (rest : List Char) (ap : List (arg σ)) :
    vprint w ('%' :: 'd' :: rest) p (.int x :: ap) = vprint w rest (myputs p (decimal x)) ap := by
  rw [vprint_percent w 'd' (by decide), vprint_case_d, sprintf_d_eq, putbuf,
    if_pos (decimal_length_lt x hx)]

/-- The directive `%v`: `-x` and the decimal numeral when the value is greater
than 1, nothing otherwise. -/
theorem percent_v_step (w : Nat) (p : printer σ) (x : Int) (hx : x.natAbs < 10 ^ BSZ)
    (rest : List Char) (ap : List (arg σ)) :
    vprint w ('%' :: 'v' :: rest) p (.INT x :: ap) =
      vprint w rest (if x > 1 then myputs p ('-' :: 'x' :: decimal x) else p) ap := by
  rw [vprint_percent w 'v' (by decide), vprint_case_v]
  by_cases h1 : x > 1
  · have hmin : -(2 ^ (w - 1)) < x := by
      have : (0 : Int) < 2 ^ (w - 1) := by positivity
      omega
    rw [if_pos h1, if_pos h1, putint_decimal w _ x hmin hx]
    rfl
  · rw [if_neg h1, if_neg h1]

theorem natAbs_lt_of_is_INT_62 (w : Nat) (hw : w ≤ 64) (x : Int) (h : is_INT w x) :
    x.natAbs < 10 ^ 62 := by
  obtain ⟨ha, hb⟩ := h
  have hp : (2 : Int) ^ (w - 1) ≤ 2 ^ 63 := pow_le_pow_right₀ (by norm_num) (by omega)
  have h3 : (x.natAbs : Int) ≤ 2 ^ 63 := by omega
  have h4 : x.natAbs ≤ 2 ^ 63 := by exact_mod_cast h3
  exact lt_of_le_of_lt h4 (by norm_num)

/-- The template `%d items%v`, one directive after the other. -/
theorem items_steps (w : Nat) (p : printer σ) (n v : Int) (hn : n.natAbs < 10 ^ 62)
    (hv : v.natAbs < 10 ^ BSZ) :
    vprint w "%d items%v".toList p [.int n, .INT v] =
      .done (if v > 1 then
          myputs (myputs (myputs p (decimal n)) " items".toList) ('-' :: 'x' :: decimal v)
        else myputs (myputs p (decimal n)) " items".toList) [] := by
  have h1 : vprint w "%d items%v".toList p [.int n, .INT v] =
      vprint w (" items".toList ++ "%v".toList) (myputs p (decimal n)) [.INT v] :=
    percent_d_step w p n hn _ _
  have h2 : vprint w (" items".toList ++ "%v".toList) (myputs p (decimal n)) [.INT v] =
      vprint w "%v".toList (myputs (myputs p (decimal n)) " items".toList) [.INT v] :=
    vprint_literals w " items".toList (by decide) _ _ _
  have h3 := percent_v_step w (myputs (myputs p (decimal n)) " items".toList) v hv [] []
  have h4 : "%v".toList = '%' :: 'v' :: [] := rfl
  rw [h1, h2, h4, h3, vprint_nil]

/-- C11: the template `%d items%v` with the arguments `(n, v)` prints the decimal
numeral of `n`, then ` items`, then `-x` and the decimal numeral of `v` when
`v > 1` and nothing more otherwise: `(3, 1)` gives `3 items` and `(3, 4)` gives
`3 items-x4`. -/
theorem items_end_to_end (w wi : Nat) (hw : w ≤ 64) (hwi : wi ≤ 64) (p : printer σ)
    (n v : Int) (hn : is_INT wi n) (hv : is_INT w v) :
    (∃ q : printer σ,
      vprint w "%d items%v".toList p [.int n, .INT v] = .done q [] ∧
      q.out = p.out ++ (decimal n ++ " items".toList ++
        (if v > 1 then '-' :: 'x' :: decimal v else [])) ∧
      q.indent = p.indent ∧ q.indent_incr = p.indent_incr) ∧
    vprint w "%d items%v".toList p [.int 3, .INT 1] = .done (myputs p "3 items".toList) [] ∧
    vprint w "%d items%v".toList p [.int 3, .INT 4] =
      .done (myputs p "3 items-x4".toList) [] := by
  refine ⟨?_, ?_, ?_⟩
  · rw [items_steps w p n v (natAbs_lt_of_is_INT_62 wi hwi n hn)
      (natAbs_lt_of_is_INT w hw v hv).1]
    refine ⟨_, rfl, ?_, ?_, ?_⟩
    · by_cases hv1 : v > 1
      · simp [hv1]
      · simp [hv1]
    · by_cases hv1 : v > 1
      · simp [hv1]
      · simp [hv1]
    · by_cases hv1 : v > 1
      · simp [hv1]
      · simp [hv1]
  · rw [items_steps w p 3 1 (by norm_num) (by norm_num [BSZ])]
    rfl
  · rw [items_steps w p 3 4 (by norm_num) (by norm_num [BSZ])]
    rfl

theorem items_end_to_end_witness :
    (64 ≤ 64 ∧ 32 ≤ 64 ∧ is_INT 32 3 ∧ is_INT 64 4) ∧
      ((∃ q : printer (List Char),
        vprint 64 "%d items%v".toList fresh [.int 3, .INT 4] = .done q [] ∧
        q.out = fresh.out ++ (decimal 3 ++ " items".toList ++
          (if (4 : Int) > 1 then '-' :: 'x' :: decimal 4 else [])) ∧
        q.indent = fresh.indent ∧ q.indent_incr = fresh.indent_incr) ∧
      vprint 64 "%d items%v".toList fresh [.int 3, .INT 1] =
        .done (myputs fresh "3 items".toList) [] ∧
      vprint 64 "%d items%v".toList fresh [.int 3, .INT 4] =
        .done (myputs fresh "3 items-x4".toList) []) :=
  ⟨⟨by decide, by decide, by unfold is_INT; decide, by unfold is_INT; decide⟩,
    items_end_to_end 64 32 (by decide) (by decide) fresh 3 4 (by unfold is_INT; decide)
      (by unfold is_INT; decide)⟩

/-- C12: the entry points `print` and `vprint` are observably identical: for
every printer state, template and argument sequence they end the same way, with
the same characters sent to the sink, the same state of the sink and the same
indentation and increment. -/
theorem print_eq_vprint (w : Nat) (p : printer σ) (format : List Char) (args : List (arg σ)) :
    print w p format args = vprint w format p args ∧
      (∀ q aq, vprint w format p args = .done q aq →
        ∃ q1 aq1, print w p format args = .done q1 aq1 ∧ q1.out = q.out ∧ q1.sink = q.sink ∧
          q1.indent = q.indent ∧ q1.indent_incr = q.indent_incr) ∧
      (∀ q, vprint w format p args = .failed q →
        ∃ q1, print w p format args = .failed q1 ∧ q1.out = q.out ∧ q1.sink = q.sink ∧
          q1.indent = q.indent ∧ q1.indent_incr = q.indent_incr) := by
  refine ⟨rfl, fun q aq h => ⟨q, aq, h, rfl, rfl, rfl, rfl⟩, fun q h => ⟨q, h, rfl, rfl, rfl, rfl⟩⟩

/-- C13: a template without `%` is forwarded as it is: the characters of the
template go to the sink in order, one call of the sink for each, no argument is
consumed, and the indentation and the increment stay as they are. -/
theorem literal_text_verbatim (w : Nat) (s : List Char) (hs : '%' ∉ s) (p : printer σ)
    (ap : List (arg σ)) :
    ∃ q : printer σ, vprint w s p ap = .done q ap ∧
      q.out = p.out ++ s ∧ q.sink = s.foldl p.putchr p.sink ∧
      q.indent = p.indent ∧ q.indent_incr = p.indent_incr := by
  have h := vprint_literals w s hs [] p ap
  rw [List.append_nil, vprint_nil] at h
  exact ⟨myputs p s, h, by simp, myputs_sink p s, by simp, by simp⟩

theorem literal_text_verbatim_witness :
    '%' ∉ "plan: (a b)".toList ∧
      ∃ q : printer (List Char),
        vprint 64 "plan: (a b)".toList fresh [arg.INT 1] = .done q [arg.INT 1] ∧
        q.out = fresh.out ++ "plan: (a b)".toList ∧
        q.sink = "plan: (a b)".toList.foldl fresh.putchr fresh.sink ∧
        q.indent = fresh.indent ∧ q.indent_incr = fresh.indent_incr :=
  ⟨by decide, literal_text_verbatim 64 "plan: (a b)".toList (by decide) fresh [arg.INT 1]⟩

/-! ## The life of a printer -/

theorem newline_sink (p : printer σ) :
    (newline p).sink =
      (Char.ofNat 10 :: List.replicate p.indent.toNat (Char.ofNat 32)).foldl p.putchr p.sink := by
  unfold newline
  rw [myputs_sink]
  rfl

/-- C14: from a printer state with indentation `n` and increment `k`, the
directive `%(` returns with the indentation set to `n + k`, having sent to the
sink one newline followed by `n + k` spaces (one space for each `i` with
`0 ≤ i < n + k`, so none when `n + k` is not positive), and nothing else; the
directive `%)` returns with the indentation set to `n - k`, having sent nothing;
neither changes the increment or consumes an argument, and the scan goes on
behind the directive. -/
theorem open_close_steps (w : Nat) (p : printer σ) (rest : List Char) (ap : List (arg σ)) :
    (∃ q : printer σ,
      vprint w ['%', '('] p ap = .done q ap ∧
      vprint w ('%' :: '(' :: rest) p ap = vprint w rest q ap ∧
      q.indent = p.indent + p.indent_incr ∧ q.indent_incr = p.indent_incr ∧
      q.out = p.out ++
        Char.ofNat 10 :: List.replicate (p.indent + p.indent_incr).toNat (Char.ofNat 32) ∧
      q.sink =
        (Char.ofNat 10 ::
          List.replicate (p.indent + p.indent_incr).toNat (Char.ofNat 32)).foldl
            p.putchr p.sink ∧
      ((List.replicate (p.indent + p.indent_incr).toNat (Char.ofNat 32)).length : Int) =
        max (p.indent + p.indent_incr) 0) ∧
    (∃ q : printer σ,
      vprint w ['%', ')'] p ap = .done q ap ∧
      vprint w ('%' :: ')' :: rest) p ap = vprint w rest q ap ∧
      q.indent = p.indent - p.indent_incr ∧ q.indent_incr = p.indent_incr ∧
      q.out = p.out ∧ q.sink = p.sink) := by
  refine ⟨⟨newline { p with indent := p.indent + p.indent_incr }, ?_, vprint_open w rest p ap,
    by simp, by simp, by simp, newline_sink _, ?_⟩,
    ⟨{ p with indent := p.indent - p.indent_incr }, ?_, vprint_close w rest p ap,
      rfl, rfl, rfl, rfl⟩⟩
  · rw [vprint_open, vprint_nil]
  · rw [List.length_replicate]
    omega
  · rw [vprint_close, vprint_nil]

/-- C15: `mkprinter` returns, for every size, sink and cleanup, a printer with
indentation 0 and increment 2, whose sink and cleanup are the ones passed in and
whose entry points `print` and `vprint` are the functions `print` and `vprint` of
this file; nothing has gone to the sink yet. -/
theorem mkprinter_fields (size : Nat) (putchr : σ → Char → σ) (cleanup : Option (σ → σ))
    (s0 : σ) :
    (mkprinter size putchr cleanup s0).indent = 0 ∧
      (mkprinter size putchr cleanup s0).indent_incr = 2 ∧
      (mkprinter size putchr cleanup s0).putchr = putchr ∧
      (mkprinter size putchr cleanup s0).cleanup = cleanup ∧
      (mkprinter size putchr cleanup s0).print = entry.print ∧
      (mkprinter size putchr cleanup s0).vprint = entry.vprint ∧
      (∀ (w : Nat) (p : printer σ) (format : List Char) (args : List (arg σ)),
        (mkprinter size putchr cleanup s0).print.call w p format args =
          print w p format args ∧
        (mkprinter size putchr cleanup s0).vprint.call w p format args =
          vprint w format p args) ∧
      (mkprinter size putchr cleanup s0).sink = s0 ∧
      (mkprinter size putchr cleanup s0).out = [] :=
  ⟨rfl, rfl, rfl, rfl, rfl, rfl, fun _ _ _ _ => ⟨rfl, rfl⟩, rfl, rfl⟩

/-- C16: `printer_destroy` calls the cleanup once when it is present, and then
not at all, in both cases before the one call that releases the storage, which
is the last call; it makes no call of the sink, so the characters sent to the
sink are those sent before. -/
theorem destroy_calls (p : printer σ) :
    (printer_destroy p).calls =
        (match p.cleanup with
          | some _ => [call.cleanup]
          | none => []) ++ [call.ifree] ∧
      (printer_destroy p).calls.count call.cleanup = (if p.cleanup.isSome then 1 else 0) ∧
      (printer_destroy p).sink =
        (match p.cleanup with
          | some f => f p.sink
          | none => p.sink) ∧
      (printer_destroy p).calls.getLast? = some call.ifree ∧
      (printer_destroy p).calls.count call.ifree = 1 ∧
      (∀ c : Char, call.putchr c ∉ (printer_destroy p).calls) ∧
      (printer_destroy p).out = p.out := by
  unfold printer_destroy
  cases h : p.cleanup with
  | none => simp
  | some f => simp

/-! ## The digit buffer and the decimal form -/

/-- On every value of `INT` but the most negative one, in base 10 and in base 16,
the digit loop of `putint` stays within the buffer and within the digit table:
it writes at least one and at most `BSZ` characters, each of them one of the
sixteen digit characters. -/
theorem putint_buffer_safe (w : Nat) (hw : w ≤ 64) (i : Int) (hi : is_INT w i)
    (hmin : i ≠ -(2 ^ (w - 1))) (b : Nat) (hb : b = 10 ∨ b = 16) :
    ∃ buf : List Char,
      putint_digits (b : Int) BSZ (if i < 0 then wrapINT w (-i) else i) [] = .ok buf ∧
      1 ≤ buf.length ∧ buf.length ≤ BSZ ∧ ∀ c ∈ buf, c ∈ "0123456789abcdef".toList := by
  have hb2 : 2 ≤ b := by omega
  have hb16 : b ≤ 16 := by omega
  have hlt : i.natAbs < b ^ BSZ := by
    rcases hb with rfl | rfl
    · exact (natAbs_lt_of_is_INT w hw i hi).1
    · exact (natAbs_lt_of_is_INT w hw i hi).2
  have hval : (if i < 0 then wrapINT w (-i) else i) = ((i.natAbs : Nat) : Int) := by
    by_cases hneg : i < 0
    · have hgt : -(2 ^ (w - 1)) < i := lt_of_le_of_ne hi.1 (Ne.symm hmin)
      have hw1 : 1 ≤ w := by
        rcases Nat.eq_zero_or_pos w with h | h
        · subst h; simp at hgt; omega
        · exact h
      rw [if_pos hneg, wrapINT_eq w hw1 (-i) ⟨by omega, by omega⟩]
      omega
    · rw [if_neg hneg]; omega
  have hrun := putint_digits_nat b hb2 hb16 63 i.natAbs [] (by simpa [BSZ] using hlt)
  rw [List.append_nil] at hrun
  refine ⟨Nat.toDigits b i.natAbs, ?_, ?_, ?_, ?_⟩
  · rw [hval]; exact hrun
  · have := toDigits_ne_nil b hb2 i.natAbs
    cases hd : Nat.toDigits b i.natAbs with
    | nil => exact absurd hd this
    | cons c s => simp
  · exact toDigits_length_le b hb2 i.natAbs BSZ hlt (by norm_num [BSZ])
  · intro c hc
    obtain ⟨d, hd, rfl⟩ := toDigits_mem b hb2 i.natAbs c hc
    exact digitChar_mem_table d (by omega)

/-- C17: at the most negative value of `INT` the digit loop of `putint` leaves
the digit table.  When the loop starts, `i` holds the wrapped negation of the
argument, which is the argument itself; the index `i % 10` of the first digit is
negative, not in `0..15`, and the character is read from outside the table. -/
theorem digit_index_most_negative (w : Nat) (hw : 1 ≤ w) :
    ¬ (0 ≤ Int.tmod (wrapINT w (-(-(2 ^ (w - 1))))) 10 ∧
        Int.tmod (wrapINT w (-(-(2 ^ (w - 1))))) 10 ≤ 15) ∧
      putint_digits 10 BSZ (wrapINT w (-(-(2 ^ (w - 1))))) [] = .error .index := by
  have hmod := tmod_most_negative w
  rw [neg_neg, wrapINT_half w hw]
  refine ⟨fun h => by omega, ?_⟩
  unfold BSZ
  rw [putint_digits]
  simp [hmod]

theorem digit_index_most_negative_witness :
    1 ≤ 64 ∧
      (¬ (0 ≤ Int.tmod (wrapINT 64 (-(-(2 ^ (64 - 1))))) 10 ∧
          Int.tmod (wrapINT 64 (-(-(2 ^ (64 - 1))))) 10 ≤ 15) ∧
        putint_digits 10 BSZ (wrapINT 64 (-(-(2 ^ (64 - 1))))) [] = .error .index) :=
  ⟨by decide, digit_index_most_negative 64 (by decide)⟩

theorem toDigits_head_ne_zero (b : Nat) (hb : 2 ≤ b) (hb16 : b ≤ 16) (n : Nat) (hn : n ≠ 0) :
    (Nat.toDigits b n).head? ≠ some '0' := by
  induction n using Nat.strong_induction_on with
  | _ n ih =>
    by_cases hlt : n < b
    · rw [toDigits_of_lt b n hlt]
      have h16 : n < 16 := by omega
      interval_cases n <;> first | exact absurd rfl hn | decide
    · have hge : b ≤ n := by omega
      have hdiv : n / b < n := Nat.div_lt_self (by omega) (by omega)
      have h0 : n / b ≠ 0 := by
        have : 0 < n / b := Nat.div_pos hge (by omega)
        omega
      rw [toDigits_of_ge b hb n hge]
      have := ih (n / b) hdiv h0
      cases hd : Nat.toDigits b (n / b) with
      | nil => exact absurd hd (toDigits_ne_nil b hb (n / b))
      | cons c s =>
        rw [hd] at this
        simpa using this

theorem digitChar_isDigit (d : Nat) (h : d < 10) : (Nat.digitChar d).isDigit = true := by
  interval_cases d <;> decide

/-- The decimal numeral is canonical: `0` for zero; otherwise a minus sign exactly
when the value is negative, then a non-empty run of decimal digits that does not
start with `0` and reads as the magnitude. -/
theorem decimal_canonical (x : Int) :
    decimal 0 = ['0'] ∧
      ∃ ds : List Char, decimal x = (if x < 0 then '-' :: ds else ds) ∧ ds ≠ [] ∧
        (∀ c ∈ ds, c.isDigit = true) ∧ parse_digits 10 ds 0 = some x.natAbs ∧
        (x ≠ 0 → ds.head? ≠ some '0') := by
  refine ⟨rfl, Nat.toDigits 10 x.natAbs, rfl, toDigits_ne_nil 10 (by norm_num) _, ?_,
    parse_digits_toDigits 10 (by norm_num) (by norm_num) _, ?_⟩
  · intro c hc
    obtain ⟨d, hd, rfl⟩ := toDigits_mem 10 (by norm_num) x.natAbs c hc
    exact digitChar_isDigit d hd
  · intro hx
    exact toDigits_head_ne_zero 10 (by norm_num) (by norm_num) x.natAbs (by omega)

theorem vprint_case_D (w : Nat) (p : printer σ) (x : Int) (ap : List (arg σ)) :
    vprint_case w 'D' p (.INT x :: ap) = after_print (putint w p x 10) ap := by
  rfl

/-- The directive `%D` on every value of `INT` but the most negative one: the
decimal numeral. -/
theorem percent_D_step (w : Nat) (p : printer σ) (x : Int) (hmin : -(2 ^ (w - 1)) < x)
    (hx : x.natAbs < 10 ^ BSZ) (rest : List Char) (ap : List (arg σ)) :
    vprint w ('%' :: 'D' :: rest) p (.INT x :: ap) = vprint w rest (myputs p (decimal x)) ap := by
  rw [vprint_percent w 'D' (by decide), vprint_case_D, putint_decimal w p x hmin hx]
  rfl

/-- C18: the directive `%D` at the most negative value of `INT` does not emit the
canonical decimal numeral: after the minus sign `putint` leaves defined behaviour
(the defect of C1), so no digit of the magnitude is emitted. -/
theorem percent_D_most_negative (w : Nat) (hw : 1 ≤ w) (rest : List Char) (p : printer σ)
    (ap : List (arg σ)) :
    vprint w ('%' :: 'D' :: rest) p (.INT (-(2 ^ (w - 1))) :: ap) = .undef .index := by
  rw [vprint_percent w 'D' (by decide), vprint_case_D, putint_negation_overflow w hw]
  rfl

theorem percent_D_most_negative_witness :
    1 ≤ 64 ∧
      vprint 64 ('%' :: 'D' :: []) fresh [.INT (-(2 ^ (64 - 1)))] = .undef .index :=
  ⟨by decide, percent_D_most_negative 64 (by decide) [] fresh []⟩

/-! ## Concatenation of templates -/

theorem putbuf_args_append (p : printer σ) (t : List Char) (ap : List (arg σ)) (q : printer σ)
    (aq ext : List (arg σ)) (h : putbuf p t ap = .done q aq) :
    putbuf p t (ap ++ ext) = .done q (aq ++ ext) := by
  unfold putbuf at h ⊢
  split_ifs at h ⊢
  cases h
  rfl

theorem after_print_args_append (o : outcome σ Unit) (ap : List (arg σ)) (q : printer σ)
    (aq ext : List (arg σ)) (h : after_print o ap = .done q aq) :
    after_print o (ap ++ ext) = .done q (aq ++ ext) := by
  cases o with
  | done q1 u => cases h; rfl
  | failed q1 => cases h
  | undef f => cases h

/-- A case of the inner `switch` that returns does the same, and leaves the
further arguments untouched, when more arguments follow in the list. -/
theorem vprint_case_args_append (w : Nat) (c : Char) (p q : printer σ)
    (ap aq ext : List (arg σ)) (h : vprint_case w c p ap = .done q aq) :
    vprint_case w c p (ap ++ ext) = .done q (aq ++ ext) := by
  unfold vprint_case at h ⊢
  by_cases h0 : c = 'M'
  · rw [if_pos h0] at h ⊢
    split at h
    · simp only [List.cons_append]; exact putbuf_args_append _ _ _ _ _ ext h
    · cases h
  rw [if_neg h0] at h ⊢
  by_cases h1 : c = 'c'
  · rw [if_pos h1] at h ⊢
    split at h
    · cases h; rfl
    · cases h
  rw [if_neg h1] at h ⊢
  by_cases h2 : c = 's'
  · rw [if_pos h2] at h ⊢
    split at h
    · cases h; rfl
    · cases h; rfl
    · cases h
  rw [if_neg h2] at h ⊢
  by_cases h3 : c = 'd'
  · rw [if_pos h3] at h ⊢
    split at h
    · simp only [List.cons_append]; exact putbuf_args_append _ _ _ _ _ ext h
    · cases h
  rw [if_neg h3] at h ⊢
  by_cases h4 : c = 'D'
  · rw [if_pos h4] at h ⊢
    split at h
    · simp only [List.cons_append]; exact after_print_args_append _ _ _ _ ext h
    · cases h
  rw [if_neg h4] at h ⊢
  by_cases h5 : c = 'f' ∨ c = 'e' ∨ c = 'g'
  · rw [if_pos h5] at h ⊢
    split at h
    · simp only [List.cons_append]; exact putbuf_args_append _ _ _ _ _ ext h
    · cases h
  rw [if_neg h5] at h ⊢
  by_cases h6 : c = 'v'
  · rw [if_pos h6] at h ⊢
    split at h
    · simp only [List.cons_append]
      split at h
      · rename_i hx
        rw [if_pos hx]
        exact after_print_args_append _ _ _ _ ext h
      · rename_i hx
        rw [if_neg hx]
        cases h; rfl
    · cases h
  rw [if_neg h6] at h ⊢
  by_cases h7 : c = 'u'
  · rw [if_pos h7] at h ⊢
    split at h
    · simp only [List.cons_append]; exact putbuf_args_append _ _ _ _ _ ext h
    · cases h
  rw [if_neg h7] at h ⊢
  by_cases h8 : c = 'x'
  · rw [if_pos h8] at h ⊢
    split at h
    · simp only [List.cons_append]; exact putbuf_args_append _ _ _ _ _ ext h
    · cases h
  rw [if_neg h8] at h ⊢
  by_cases h9 : c = '('
  · rw [if_pos h9] at h ⊢
    cases h; rfl
  rw [if_neg h9] at h ⊢
  by_cases h10 : c = ')'
  · rw [if_pos h10] at h ⊢
    cases h; rfl
  rw [if_neg h10] at h ⊢
  by_cases h11 : c = 'p'
  · rw [if_pos h11] at h ⊢
    split at h
    · simp only [List.cons_append]; exact after_print_args_append _ _ _ _ ext h
    · cases h; rfl
    · cases h
  rw [if_neg h11] at h ⊢
  by_cases h12 : c = 'P'
  · rw [if_pos h12] at h ⊢
    split at h
    · simp only [List.cons_append]; exact after_print_args_append _ _ _ _ ext h
    · cases h; rfl
    · cases h
  rw [if_neg h12] at h ⊢
  by_cases h13 : c = 'T'
  · rw [if_pos h13] at h ⊢
    split at h
    · simp only [List.cons_append]; exact after_print_args_append _ _ _ _ ext h
    · cases h; rfl
    · cases h
  rw [if_neg h13] at h ⊢
  cases h

/-- A scan that returns does the same, and leaves the further arguments
untouched, when more arguments follow in the list. -/
theorem vprint_args_append_aux (w : Nat) : ∀ (n : Nat) (s : List Char), s.length ≤ n →
    (∀ (p : printer σ) (ap : List (arg σ)) (q : printer σ) (aq ext : List (arg σ)),
      vprint w s p ap = .done q aq → vprint w s p (ap ++ ext) = .done q (aq ++ ext)) ∧
    (∀ (x : Int) (p : printer σ) (ap : List (arg σ)) (q : printer σ) (aq ext : List (arg σ)),
      vprint_o w x s p ap = .done q aq → vprint_o w x s p (ap ++ ext) = .done q (aq ++ ext)) := by
  intro n
  induction n with
  | zero =>
    intro s hs
    have : s = [] := List.eq_nil_of_length_eq_zero (by omega)
    subst this
    refine ⟨fun p ap q aq ext h => ?_, fun x p ap q aq ext h => ?_⟩
    · rw [vprint_nil] at h ⊢
      cases h
      rfl
    · rw [vprint_o_nil] at h
      cases h
  | succ n ih =>
    intro s hs
    cases s with
    | nil =>
      refine ⟨fun p ap q aq ext h => ?_, fun x p ap q aq ext h => ?_⟩
      · rw [vprint_nil] at h ⊢
        cases h
        rfl
      · rw [vprint_o_nil] at h
        cases h
    | cons c s =>
      have hlen : s.length ≤ n := by simp at hs; omega
      refine ⟨fun p ap q aq ext h => ?_, fun x p ap q aq ext h => ?_⟩
      · by_cases hc : c = '%'
        · subst hc
          cases s with
          | nil => rw [vprint_percent_nil] at h; cases h
          | cons d s =>
            have hlen2 : s.length ≤ n := by simp at hlen; omega
            by_cases hd : d = 'o'
            · subst hd
              rw [vprint_percent_o_args] at h ⊢
              split at h
              · simp only [List.cons_append]
                exact (ih s hlen2).2 _ _ _ _ _ ext h
              · cases h
            · rw [vprint_percent w d hd] at h ⊢
              cases hcase : vprint_case w d p ap with
              | done p1 ap1 =>
                rw [hcase] at h
                rw [vprint_case_args_append w d p p1 ap ap1 ext hcase]
                exact (ih s hlen2).1 _ _ _ _ ext h
              | failed p1 => rw [hcase] at h; cases h
              | undef f => rw [hcase] at h; cases h
        · rw [vprint_literal w c hc] at h ⊢
          exact (ih s hlen).1 _ _ _ _ ext h
      · rw [vprint_o_cons] at h ⊢
        by_cases hc : c = '='
        · rw [if_pos hc] at h ⊢
          by_cases hx : x = 0
          · rw [if_neg (by simpa using hx)] at h ⊢
            exact (ih s hlen).1 _ _ _ _ ext h
          · rw [if_pos hx] at h ⊢
            cases hput : putint w (do_putchr p '=') x 10 with
            | done p1 u =>
              rw [hput] at h
              exact (ih s hlen).1 _ _ _ _ ext h
            | failed p1 => rw [hput] at h; cases h
            | undef f => rw [hput] at h; cases h
        · rw [if_neg hc] at h ⊢
          exact (ih s hlen).2 _ _ _ _ _ ext h

theorem vprint_args_append (w : Nat) (s : List Char) (p q : printer σ)
    (ap aq ext : List (arg σ)) (h : vprint w s p ap = .done q aq) :
    vprint w s p (ap ++ ext) = .done q (aq ++ ext) :=
  (vprint_args_append_aux w s.length s (le_refl _)).1 p ap q aq ext h

/-- C19: concatenation of templates is sequential composition.  If the scan of
`f1` with the arguments `a1` from state `p0` returns in state `p1` with every
argument of `a1` consumed, then the scan of `f1 ++ f2` with `a1 ++ a2` from `p0`
ends exactly as the scan of `f2` with `a2` from `p1` does: the same outcome, the
same output and the same final state. -/
theorem concat_is_sequence (w : Nat) (f1 f2 : List Char) (p0 p1 : printer σ)
    (a1 a2 : List (arg σ)) (h : vprint w f1 p0 a1 = .done p1 []) :
    vprint w (f1 ++ f2) p0 (a1 ++ a2) = vprint w f2 p1 a2 := by
  have h1 := vprint_args_append w f1 p0 p1 a1 [] a2 h
  rw [List.nil_append] at h1
  exact vprint_append_done w f1 f2 p0 p1 (a1 ++ a2) a2 h1

theorem concat_is_sequence_witness :
    vprint 64 "%(%ok=".toList fresh [arg.INT 5] =
        .done { fresh with indent := 2, sink := "\n  /k=5".toList, out := "\n  /k=5".toList } [] ∧
      vprint 64 ("%(%ok=".toList ++ "b%s%)".toList) fresh
          ([arg.INT 5] ++ [arg.str (some "c".toList)]) =
        vprint 64 "b%s%)".toList
          { fresh with indent := 2, sink := "\n  /k=5".toList, out := "\n  /k=5".toList }
          [arg.str (some "c".toList)] :=
  ⟨rfl, concat_is_sequence 64 "%(%ok=".toList "b%s%)".toList fresh _ [arg.INT 5]
    [arg.str (some "c".toList)] rfl⟩

/-! ## No escape for the percent sign -/

theorem not_directive_of_digit_or_punct (d : Char)
    (hd : d = '%' ∨ d.isDigit = true ∨ (ispunct d = true ∧ d ≠ '(' ∧ d ≠ ')')) :
    d ∉ ['M', 'c', 's', 'd', 'D', 'f', 'e', 'g', 'v', 'o', 'u', 'x', '(', ')', 'p', 'P',
      'T'] := by
  intro hmem
  simp only [List.mem_cons, List.mem_singleton, List.not_mem_nil, or_false] at hmem
  rcases hmem with h | h | h | h | h | h | h | h | h | h | h | h | h | h | h | h | h <;>
    subst h <;> revert hd <;> decide

/-- C20: there is no escape for a literal percent sign.  When the scan reaches a
`%` that is followed by another `%`, by a digit, by a punctuation character other
than `(` and `)`, or by the end of the template, the call halts on the failed
assertion of the unknown format, as it does for an unknown letter, and the
printer is in the state `q` it was in when the `%` was reached: no character is
sent to the sink for it. -/
theorem no_percent_escape (w : Nat) (pre : List Char) (d : Char) (rest : List Char)
    (hd : d = '%' ∨ d.isDigit = true ∨ (ispunct d = true ∧ d ≠ '(' ∧ d ≠ ')'))
    (p q : printer σ) (ap aq : List (arg σ)) (hpre : vprint w pre p ap = .done q aq) :
    vprint w (pre ++ '%' :: d :: rest) p ap = .failed q ∧
      vprint w (pre ++ '%' :: '%' :: rest) p ap = .failed q ∧
      vprint w (pre ++ ['%']) p ap = .failed q ∧
      vprint w (pre ++ '%' :: 'z' :: rest) p ap = .failed q := by
  refine ⟨?_, ?_, ?_, ?_⟩
  · rw [vprint_append_done w pre _ p q ap aq hpre]
    exact vprint_unknown w d (not_directive_of_digit_or_punct d hd) rest q aq
  · rw [vprint_append_done w pre _ p q ap aq hpre]
    exact vprint_unknown w '%' (by decide) rest q aq
  · rw [vprint_append_done w pre _ p q ap aq hpre]
    exact vprint_percent_nil w q aq
  · rw [vprint_append_done w pre _ p q ap aq hpre]
    exact vprint_unknown w 'z' (by decide) rest q aq

theorem no_percent_escape_witness :
    (('5' = '%' ∨ Char.isDigit '5' = true ∨ (ispunct '5' = true ∧ '5' ≠ '(' ∧ '5' ≠ ')')) ∧
      vprint 64 "50".toList fresh [] = .done (myputs fresh "50".toList) []) ∧
      (vprint 64 ("50".toList ++ '%' :: '5' :: "d".toList) fresh [] =
          .failed (myputs fresh "50".toList) ∧
        vprint 64 ("50".toList ++ '%' :: '%' :: "d".toList) fresh [] =
          .failed (myputs fresh "50".toList) ∧
        vprint 64 ("50".toList ++ ['%']) fresh [] = .failed (myputs fresh "50".toList) ∧
        vprint 64 ("50".toList ++ '%' :: 'z' :: "d".toList) fresh [] =
          .failed (myputs fresh "50".toList)) :=
  ⟨⟨by decide, rfl⟩,
    no_percent_escape 64 "50".toList '5' "d".toList (by decide) fresh
      (myputs fresh "50".toList) [] [] rfl⟩

end Print
